import Mathlib

set_option maxRecDepth 10000

/-!
Verification of the devtools-core fragment: a shallow embedding of
`DevToolsUtils` (safeErrorString, makeInfallible, assert, settleAll),
the `GripMap` renderer's entry selection (src/src/reps/grip-map.js),
and the object-inspector property-tree builder (`makeNodesForProperties`,
`isDefault`), whose implementation is exercised by the repository's tests.
JavaScript values are modelled by a small universe `JSVal`; fallible
JavaScript code is embedded in `Except`; console logging is made explicit
as a returned list of messages.
-/

/-- Model of a JavaScript runtime value as far as this code inspects one:
the primitives, and objects carrying an optional `class` field (grips) and
an optional `value` field (property descriptors / map-entry wrappers). -/
inductive JSVal where
  | vUndefined
  | vNull
  | vBool (b : Bool)
  | vNum (n : Int)
  | vStr (s : String)
  | vObj (cls : Option String) (value : Option JSVal)

/-- JavaScript truthiness of a `JSVal`. -/
def truthy : JSVal → Bool
  | .vUndefined => false
  | .vNull => false
  | .vBool b => b
  | .vNum n => n != 0
  | .vStr s => !s.data.isEmpty
  | .vObj _ _ => true

/-- The string `typeof v` evaluates to in JavaScript. -/
def typeofJS : JSVal → String
  | .vUndefined => "undefined"
  | .vNull => "object"
  | .vBool _ => "boolean"
  | .vNum _ => "number"
  | .vStr _ => "string"
  | .vObj _ _ => "object"

/-- ASCII lower-casing of one character (the fragment of
`String.prototype.toLowerCase` this code exercises on class names). -/
def lowerChar (c : Char) : Char :=
  if 65 ≤ c.toNat ∧ c.toNat ≤ 90 then Char.ofNat (c.toNat + 32) else c

/-- ASCII lower-casing of a string. -/
def lowerString (s : String) : String := ⟨s.data.map lowerChar⟩

/-- Lexicographic (code-unit) order on character lists, as JavaScript's
`<` compares strings. -/
def charListLe : List Char → List Char → Bool
  | [], _ => true
  | _ :: _, [] => false
  | a :: as, b :: bs =>
    if a.toNat < b.toNat then true
    else if a.toNat = b.toNat then charListLe as bs
    else false

/-- JavaScript string comparison `a <= b` (code-unit lexicographic). -/
def jsStrLe (a b : String) : Bool := charListLe a.data b.data

namespace DevToolsUtils

/-- Abstraction of the argument `aError` given to `safeErrorString`
(src/unnamed/part_001 lines 13-43): each field is the outcome of one of
the operations the function performs on the value, `Except` recording
that the operation may itself throw (a getter, a hostile `toString`).
`protoToString` is `Object.prototype.toString.call(aError)`, which never
throws. -/
structure ErrVal where
  toStr : Except Unit JSVal
  stackAccess : Except Unit JSVal
  stackToStr : Except Unit JSVal
  lineNumberAccess : Except Unit JSVal
  columnNumberAccess : Except Unit JSVal
  protoToString : String

/-- Body of the outer `try` of `safeErrorString`: `ok (some s)` is the
`return errorString` at line 37, `ok none` falls through to the generic
fallback (the `toString` result was not a string), `error` is an uncaught
exception reaching the outer `catch`. -/
def safeErrorStringBody (e : ErrVal) : Except Unit (Option String) := do
  let ts ← e.toStr
  match ts with
  | .vStr s =>
    let s1 :=
      match e.stackAccess with
      | .error _ => s
      | .ok stv =>
        if truthy stv then
          match e.stackToStr with
          | .error _ => s
          | .ok (.vStr st) => s ++ "\nStack: " ++ st
          | .ok _ => s
        else s
    let ln ← e.lineNumberAccess
    let cn ← e.columnNumberAccess
    match ln, cn with
    | .vNum l, .vNum c =>
      pure (some (s1 ++ "Line: " ++ toString l ++ ", column: " ++ toString c))
    | _, _ => pure (some s1)
  | _ => pure none

/-- The function `safeErrorString` of src/unnamed/part_001: the total
result type `String` embeds that the function returns without fail. -/
def safeErrorString (e : ErrVal) : String :=
  match safeErrorStringBody e with
  | .ok (some s) => s
  | .ok none => e.protoToString
  | .error _ => e.protoToString

/-- The message `reportException` (src/unnamed/part_001 lines 48-61)
writes to the console for thrower `who` and stringified exception `msg`. -/
def reportExceptionMsg (who : String) (msg : String) : String :=
  who ++ " threw an exception: " ++ msg

/-- The function `makeInfallible` of src/unnamed/part_001 lines 77-93 as
the source stands: the returned wrapper calls the handler directly, the
`try`/`catch` around the call being commented out, so an exception the
handler throws propagates to the wrapper's caller. -/
def makeInfallible (aHandler : List JSVal → Except String JSVal)
    (aName : Option String) : List JSVal → Except String JSVal :=
  fun args => aHandler args

/-- The two build flags `assert` consults on `AppConstants`. -/
structure AppConstantsFlags where
  DEBUG : Bool
  DEBUG_JS_MODULES : Bool

/-- Whether assertions are enabled: a DEBUG or DEBUG_JS_MODULES build, or
the `testing` flag set (src/unnamed/part_001 lines 427-432). -/
def assertEnabled (ac : AppConstantsFlags) (testing : Bool) : Bool :=
  ac.DEBUG || ac.DEBUG_JS_MODULES || testing

/-- The function `reallyAssert` of src/unnamed/part_001 lines 400-406:
on a falsy condition it logs the failure through `reportException` and
throws; the pair carries (result, console log). -/
def reallyAssert (condition : JSVal) (message : String) :
    Except String Unit × List String :=
  if truthy condition then (.ok (), [])
  else (.error ("Assertion failure: " ++ message),
    [reportExceptionMsg "DevToolsUtils.assert" ("Assertion failure: " ++ message)])

/-- The exported `assert` getter of src/unnamed/part_001 lines 427-432:
`reallyAssert` when assertions are enabled, the no-op otherwise. -/
def assert (ac : AppConstantsFlags) (testing : Bool) (condition : JSVal)
    (message : String) : Except String Unit × List String :=
  if assertEnabled ac testing then reallyAssert condition message
  else (.ok (), [])

/-- One element of the iterable given to `settleAll`: a plain value (not
a thenable, forwarded synchronously through `resolver`), or a pending
promise that will later resolve or reject with the recorded outcome. -/
inductive SettleInput (α β : Type) where
  | value (v : α)
  | promiseOk (v : α)
  | promiseErr (e : β)

/-- The mutable state of one `settleAll` call (src/unnamed/part_001 lines
479-532): `countdown`, `resolutionValues`, `rejectionValue`,
`rejectionOccurred`, and the deferred's settlement (`none` while the
returned promise is pending; `Except.error` carries the possibly-undefined
`rejectionValue`). -/
structure SettleState (α β : Type) where
  countdown : Nat
  resolutionValues : List (Option α)
  rejectionValue : Option β
  rejectionOccurred : Bool
  outcome : Option (Except (Option β) (List (Option α)))

/-- Settling the deferred (a deferred settles at most once). -/
def settleOutcome (s : SettleState α β) : SettleState α β :=
  if s.outcome.isSome then s
  else if s.rejectionOccurred then { s with outcome := some (.error s.rejectionValue) }
  else { s with outcome := some (.ok s.resolutionValues) }

/-- The function `checkForCompletion` at lines 497-506: decrement the
countdown and, when it reaches zero, resolve or reject the deferred. -/
def checkForCompletion (s : SettleState α β) : SettleState α β :=
  let s1 := { s with countdown := s.countdown - 1 }
  if 0 < s1.countdown then s1 else settleOutcome s1

/-- The `resolver` closure for index `i` (lines 511-514). -/
def resolver (i : Nat) (result : α) (s : SettleState α β) : SettleState α β :=
  checkForCompletion { s with resolutionValues := s.resolutionValues.set i (some result) }

/-- The `rejecter` closure (lines 515-521): only the first rejection's
reason is kept. -/
def rejecter (error : β) (s : SettleState α β) : SettleState α β :=
  checkForCompletion (if s.rejectionOccurred then s
    else { s with rejectionValue := some error, rejectionOccurred := true })

/-- The synchronous `for` loop of lines 508-529: plain values fire their
`resolver` immediately, promises only register their callbacks. -/
def settleInitLoop : List (SettleInput α β) → Nat → SettleState α β → SettleState α β
  | [], _, s => s
  | .value a :: rest, i, s => settleInitLoop rest (i + 1) (resolver i a s)
  | .promiseOk _ :: rest, i, s => settleInitLoop rest (i + 1) s
  | .promiseErr _ :: rest, i, s => settleInitLoop rest (i + 1) s

/-- The state of a `settleAll` call right after the synchronous part of
the call returns: empty input resolves at once (lines 492-495), otherwise
the loop over the inputs has run. -/
def settleAllInit (inputs : List (SettleInput α β)) : SettleState α β :=
  let n := inputs.length
  let s0 : SettleState α β := ⟨n, List.replicate n none, none, false, none⟩
  if n = 0 then { s0 with outcome := some (.ok s0.resolutionValues) }
  else settleInitLoop inputs 0 s0

/-- Delivery of the settlement of pending promise `i`: its registered
`resolver` or `rejecter` fires. -/
def settleEvent (inputs : List (SettleInput α β)) (s : SettleState α β)
    (i : Nat) : SettleState α β :=
  match inputs.get? i with
  | some (.promiseOk a) => resolver i a s
  | some (.promiseErr e) => rejecter e s
  | _ => s

/-- The state after the synchronous call and then the pending promises
settling in the temporal order `order` (a permutation of the promise
positions). -/
def settleRun (inputs : List (SettleInput α β)) (order : List Nat) : SettleState α β :=
  order.foldl (settleEvent inputs) (settleAllInit inputs)

/-- Positions from `i` on of the inputs in `rest` that are promises. -/
def promiseIndexesGo : List (SettleInput α β) → Nat → List Nat
  | [], _ => []
  | .value _ :: rest, i => promiseIndexesGo rest (i + 1)
  | .promiseOk _ :: rest, i => i :: promiseIndexesGo rest (i + 1)
  | .promiseErr _ :: rest, i => i :: promiseIndexesGo rest (i + 1)

/-- Positions of the inputs that are promises (whose callbacks fire later). -/
def promiseIndexes (inputs : List (SettleInput α β)) : List Nat :=
  promiseIndexesGo inputs 0

/-- The number of plain (non-thenable) values among the inputs. -/
def numValues : List (SettleInput α β) → Nat
  | [] => 0
  | .value _ :: rest => numValues rest + 1
  | .promiseOk _ :: rest => numValues rest
  | .promiseErr _ :: rest => numValues rest

/-- The number of promises among the inputs. -/
def numPromises : List (SettleInput α β) → Nat
  | [] => 0
  | .value _ :: rest => numPromises rest
  | .promiseOk _ :: rest => numPromises rest + 1
  | .promiseErr _ :: rest => numPromises rest + 1

/-- The slots the synchronous loop fills: each plain value written at its
position. -/
def writeValues : List (SettleInput α β) → Nat → List (Option α) → List (Option α)
  | [], _, vals => vals
  | .value a :: rest, i, vals => writeValues rest (i + 1) (vals.set i (some a))
  | .promiseOk _ :: rest, i, vals => writeValues rest (i + 1) vals
  | .promiseErr _ :: rest, i, vals => writeValues rest (i + 1) vals

/-- The resolution value an input contributes to `resolutionValues`
(none for an input that rejects: its slot keeps the array hole). -/
def settledValue : SettleInput α β → Option α
  | .value a => some a
  | .promiseOk a => some a
  | .promiseErr _ => none

/-- The reason of the first rejection delivered in the order `order`. -/
def firstRejection (inputs : List (SettleInput α β)) (order : List Nat) : Option β :=
  order.findSome? (fun i =>
    match inputs.get? i with
    | some (.promiseErr e) => some e
    | _ => none)

/-- The contents of `resolutionValues` once the events `pre` have been
delivered: plain values are present from the synchronous loop, a promise's
slot is filled when its resolution has been delivered, a rejected
promise's slot stays a hole. -/
def expectedValues (inputs : List (SettleInput α β)) (pre : List Nat) : List (Option α) :=
  (List.range inputs.length).map (fun i =>
    match inputs.get? i with
    | some (.value a) => some a
    | some (.promiseOk a) => if i ∈ pre then some a else none
    | _ => none)

/-- The argument of `settleAll` before the iterability check at lines
480-482: `null`, `undefined`, a non-iterable value (no `Symbol.iterator`
method), or an iterable of inputs. -/
inductive SettleArg (α β : Type) where
  | jsNull
  | jsUndefined
  | nonIterable
  | iterable (values : List (SettleInput α β))

/-- The synchronous entry of `settleAll`: `null` and values without a
`Symbol.iterator` function throw the explicit `Error`; `undefined` throws
a `TypeError` already at the `values[Symbol.iterator]` property access;
an iterable reaches the settling machinery with its values. An
`Except.error` here is a synchronous throw, not a rejected promise. -/
def settleAllChecked : SettleArg α β → Except String (List (SettleInput α β))
  | .jsNull => .error "Error: settleAll() expects an iterable."
  | .jsUndefined => .error "TypeError: values is undefined"
  | .nonIterable => .error "Error: settleAll() expects an iterable."
  | .iterable values => .ok values

end DevToolsUtils

namespace GripMap

/-- A map-like grip as `entriesIterator` reads it: `null`/`undefined`
(on which the `object.preview` access throws), or an object whose
`preview.entries` is an optional list of key/value pairs. -/
inductive GripObject where
  | nullish
  | obj (preview : Option (Option (List (JSVal × JSVal))))

/-- Evaluation of `object.preview && object.preview.entries ?
object.preview.entries : []` (grip-map.js lines 62-63), throwing on a
nullish `object`. -/
def previewEntries : GripObject → Except String (List (JSVal × JSVal))
  | .nullish => .error "TypeError: object is null or undefined"
  | .obj none => .ok []
  | .obj (some entries?) => .ok (entries?.getD [])

/-- Evaluation of `(entry && entry.value !== undefined) ? entry.value :
entry` (grip-map.js line 146). -/
def extractValue : JSVal → JSVal
  | .vObj cls (some .vUndefined) => .vObj cls (some .vUndefined)
  | .vObj _ (some v) => v
  | v => v

/-- Evaluation of `(value && value.class ? value.class : typeof
value).toLowerCase()` (grip-map.js line 149). -/
def typeFor (v : JSVal) : String :=
  if truthy v then
    match v with
    | .vObj (some c) _ => if c.data.isEmpty then typeofJS v else lowerString c
    | _ => typeofJS v
  else typeofJS v

/-- Evaluation of `value.length != 0` at a point where `type` is already
known to be "string": a primitive string compares its length, any other
value reads `undefined`, and `undefined != 0` is true. -/
def jsLengthNeZero : JSVal → Bool
  | .vStr s => !s.data.isEmpty
  | _ => true

/-- The default `isInterestingEntry` filter (grip-map.js lines 54-60). -/
def defaultIsInterestingEntry (type : String) (value : JSVal) : Bool :=
  type == "boolean" || type == "number" ||
    (type == "string" && jsLengthNeZero value)

/-- An entry filter as `getEntriesIndexes` calls one: arguments (type,
value, key); a user-supplied filter may throw. -/
def EntryFilter : Type := String → JSVal → JSVal → Except String Bool

/-- The negated filter built at grip-map.js lines 69-71. -/
def notFilter (f : EntryFilter) : EntryFilter := fun t v k =>
  match f t v k with
  | .ok b => .ok (!b)
  | .error e => .error e

/-- The `reduce` of `getEntriesIndexes` (grip-map.js lines 142-158):
`i` is the running entry index, `acc` the accumulated index list, and
entries stop being examined for selection once `acc` is full. -/
def getEntriesIndexesGo (filter : EntryFilter) (max : Nat) :
    List (JSVal × JSVal) → Nat → List Nat → Except String (List Nat)
  | [], _, acc => .ok acc
  | (key, entry) :: rest, i, acc =>
    if acc.length < max then
      match filter (typeFor (extractValue entry)) (extractValue entry) key with
      | .error e => .error e
      | .ok b => getEntriesIndexesGo filter max rest (i + 1) (if b then acc ++ [i] else acc)
    else getEntriesIndexesGo filter max rest (i + 1) acc

/-- The method `getEntriesIndexes` of grip-map.js. -/
def getEntriesIndexes (entries : List (JSVal × JSVal)) (max : Nat)
    (filter : EntryFilter) : Except String (List Nat) :=
  getEntriesIndexesGo filter max entries 0 []

/-- One item of the rendered entry list: a `PropRep` for a displayed
key/value pair (with its delimiter), or the trailing "more…" caption. -/
inductive RenderedItem where
  | prop (name : JSVal) (object : JSVal) (delim : String)
  | moreCaption (label : String)

/-- The ascending sort `indexes.sort((a, b) => a - b)` of grip-map.js
lines 108-110. -/
def sortIndexes (indexes : List Nat) : List Nat :=
  indexes.insertionSort (fun a b => a ≤ b)

/-- The method `getEntries` of grip-map.js lines 98-132: sort the indexes
ascending and map each to a `PropRep`; `entries[index]` on a bad index or
reading `.value` of a nullish entry value throws. -/
def getEntriesRender (entries : List (JSVal × JSVal)) (indexes : List Nat) :
    Except String (List RenderedItem) :=
  let sorted := sortIndexes indexes
  sorted.enum.mapM (fun pi =>
    match entries.get? pi.2 with
    | none => .error "TypeError: entries[index] is undefined"
    | some (key, entryValue) =>
      match entryValue with
      | .vNull => .error "TypeError: cannot read property of null"
      | .vUndefined => .error "TypeError: cannot read property of undefined"
      | e =>
        .ok (.prop key (extractValue e)
          (if pi.1 < sorted.length - 1 ∨ sorted.length < entries.length then ", " else "")))

/-- The props of the `GripMap` component that `entriesIterator` reads:
only the optional custom `isInterestingEntry` filter matters to entry
selection. -/
structure GripMapProps where
  isInterestingEntry : Option EntryFilter

/-- The method `entriesIterator` of grip-map.js lines 52-89, with the
exceptions it can raise made explicit in `Except`. -/
def entriesIterator (props : GripMapProps) (object : GripObject) (max : Nat) :
    Except String (List RenderedItem) := do
  let filter := props.isInterestingEntry.getD
    (fun t v _ => .ok (defaultIsInterestingEntry t v))
  let mapEntries ← previewEntries object
  let indexes ← getEntriesIndexes mapEntries max filter
  let indexes ←
    if indexes.length < max ∧ indexes.length < mapEntries.length then do
      let extra ← getEntriesIndexes mapEntries (max - indexes.length) (notFilter filter)
      pure (indexes ++ extra)
    else pure indexes
  let entries ← getEntriesRender mapEntries indexes
  if entries.length < mapEntries.length then
    pure (entries ++ [.moreCaption (toString ((mapEntries.length : Int) - max) ++ " more…")])
  else
    pure entries

/-- The method `safeEntriesIterator` of grip-map.js lines 42-50: default
the limit to 3, catch any exception from `entriesIterator`, log it
(second component) and return the empty list. -/
def safeEntriesIterator (props : GripMapProps) (object : GripObject)
    (max? : Option Nat) : List RenderedItem × List String :=
  let max := max?.getD 3
  match entriesIterator props object max with
  | .ok r => (r, [])
  | .error err => ([], [err])

/-- Whether a value is `null` or `undefined` (reading a property of such
a value throws). -/
def nullish : JSVal → Bool
  | .vNull => true
  | .vUndefined => true
  | _ => false

/-- Whether an entry passes the default filter, as a predicate on the raw
key/value pair. -/
def interestingEntry (kv : JSVal × JSVal) : Bool :=
  defaultIsInterestingEntry (typeFor (extractValue kv.2)) (extractValue kv.2)

/-- Positions from `i` on of the entries satisfying `p`, in input order. -/
def entryIndexesGo (p : JSVal × JSVal → Bool) : List (JSVal × JSVal) → Nat → List Nat
  | [], _ => []
  | kv :: rest, i =>
    if p kv then i :: entryIndexesGo p rest (i + 1) else entryIndexesGo p rest (i + 1)

/-- Positions of the entries satisfying `p`, in input order. -/
def entryIndexesWhere (p : JSVal × JSVal → Bool) (entries : List (JSVal × JSVal)) : List Nat :=
  entryIndexesGo p entries 0

/-- The `PropRep` item `getEntries` builds for the selected index at
position `pi.1` of the sorted index list, `count` selected indexes and
`total` entries in all (the `none` arm is unreachable for in-range
indexes). -/
def renderedAt (entries : List (JSVal × JSVal)) (count total : Nat)
    (pi : Nat × Nat) : RenderedItem :=
  match entries.get? pi.2 with
  | some (k, e) =>
    .prop k (extractValue e) (if pi.1 < count - 1 ∨ count < total then ", " else "")
  | none => .moreCaption ""

/-- The indexes the default selection of `entriesIterator` displays: the
first `max` interesting entries, back-filled with the first uninteresting
entries when the interesting ones do not fill the quota, then sorted
ascending by `getEntries`. -/
def selectedIndexes (entries : List (JSVal × JSVal)) (max : Nat) : List Nat :=
  let ints := (entryIndexesWhere interestingEntry entries).take max
  let unints := (entryIndexesWhere (fun kv => !interestingEntry kv) entries).take (max - ints.length)
  sortIndexes (ints ++ unints)

end GripMap

namespace ObjectInspector

/-- Modelled from the spec: whether a property key is numeric-looking
(the spec sorts "numeric-looking keys" numerically before the rest; the
repository's test src/unnamed/part_000 lines 223-257 fixes that the empty
key sorts with the numeric group, as JavaScript number coercion maps it
to 0), together with its numeric value. -/
def numKey (s : String) : Option Nat :=
  if s.data.all Char.isDigit then
    some (s.data.foldl (fun n c => 10 * n + (c.toNat - 48)) 0)
  else none

/-- Modelled from the spec: the key order of the property-tree builder —
numeric-looking keys ascending by numeric value first, then the remaining
keys in ascending lexicographic order. -/
def keyLE (a b : String) : Bool :=
  match numKey a, numKey b with
  | some x, some y => x ≤ y
  | some _, none => true
  | none, some _ => false
  | none, none => jsStrLe a b

/-- Modelled from the spec: `sortProperties`, the sort of
`Object.keys(ownProperties)` used by `makeNodesForProperties` (the
implementation lives in utils outside this fragment; its behaviour is
pinned by src/unnamed/part_000 lines 105-134 and 223-257). -/
def sortProperties (keys : List String) : List String :=
  keys.insertionSort (fun a b => keyLE a b = true)

/-- A property descriptor as the protocol serialises one: optional
`value`, `get` and `set` fields. -/
structure PropDesc where
  value : Option JSVal
  get : Option JSVal
  set : Option JSVal

/-- Modelled from the spec: a property takes part in the node list when
its descriptor has a concrete `value` or an accessor (src/unnamed/part_000
lines 15-41 and 43-103 fix that a bare `{}` descriptor is dropped while
value/getter/setter descriptors are kept). -/
def concreteProperty (d : PropDesc) : Bool :=
  d.value.isSome || d.get.isSome || d.set.isSome

/-- Lookup of a property descriptor by name. -/
def lookupDesc (own : List (String × PropDesc)) (k : String) : Option PropDesc :=
  (own.find? (fun p => p.1 == k)).map (·.2)

/-- The `ownProperties`/`prototype` record `makeNodesForProperties`
receives; `ownProperties` lists the own keys in `Object.keys` order. -/
structure ObjProps where
  ownProperties : List (String × PropDesc)
  prototype : Option JSVal

/-- The parent the nodes are built under: its `path` and the `class` of
its `contents.value` (the window check reads the latter). -/
structure RootNode where
  path : String
  cls : Option String

/-- Contents of a produced tree node: an own-property descriptor, the
prototype value, a numeric bucket holding a run of keys, or the collapsed
window default-properties bucket. -/
inductive NodeContents where
  | desc (d : PropDesc)
  | protoVal (v : JSVal)
  | bucketOf (keys : List String)
  | defaultPropsOf (keys : List String)

/-- A displayable tree node: `name` (quoted when needed), slash-joined
`path`, and `contents`. -/
structure TreeNode where
  name : String
  path : String
  contents : NodeContents

/-- Whether a key renders unquoted: an identifier, or a number
(src/unnamed/part_000 lines 223-257: "Numbers are ok."). -/
def unquotedKey (s : String) : Bool :=
  (match s.data with
   | [] => false
   | c :: cs =>
     (c.isAlpha || c = '_' || c = '$') &&
       cs.all (fun d => d.isAlphanum || d = '_' || d = '$'))
  || (s.data.all Char.isDigit && !s.data.isEmpty)

/-- Modelled from the spec: names needing quoting are quoted in `name`;
the `path` keeps the raw key. -/
def maybeQuote (s : String) : String :=
  if unquotedKey s then s else "\"" ++ s ++ "\""

/-- Modelled from the spec: the ordered, filtered key list the builder
turns into nodes. -/
def propKeys (own : List (String × PropDesc)) : List String :=
  (sortProperties (own.map (·.1))).filter (fun k =>
    match lookupDesc own k with
    | some d => concreteProperty d
    | none => false)

/-- An individual own-property node. -/
def mkPropNode (parentPath : String) (own : List (String × PropDesc))
    (k : String) : TreeNode :=
  { name := maybeQuote k, path := parentPath ++ "/" ++ k,
    contents := .desc ((lookupDesc own k).getD ⟨none, none, none⟩) }

/-- The `__proto__` node appended when a prototype is present. -/
def protoNode (parentPath : String) (p : JSVal) : TreeNode :=
  { name := "__proto__", path := parentPath ++ "/__proto__",
    contents := .protoVal p }

/-- The number of buckets `n` keys fill at `bucketSize` keys a bucket. -/
def bucketCount (n bucketSize : Nat) : Nat := (n + bucketSize - 1) / bucketSize

/-- Modelled from the spec: the bucket node for 1-based bucket `i` —
name `[minKey..maxKey]` with the upper label capped at the property count
(src/unnamed/part_000 lines 196-221: the last of 331 entries labels
`[300..331]`), path `parent/bucket{i}`, holding the i-th run of
`bucketSize` keys. -/
def bucketNode (parentPath : String) (keys : List String) (bucketSize : Nat)
    (j : Nat) : TreeNode :=
  let i := j + 1
  let minKey := j * bucketSize
  let maxKey := min (i * bucketSize - 1) keys.length
  { name := "[" ++ toString minKey ++ ".." ++ toString maxKey ++ "]",
    path := parentPath ++ "/bucket" ++ toString i,
    contents := .bucketOf ((keys.drop minKey).take bucketSize) }

/-- Modelled from the spec: the grouping of an oversized property list
into consecutive fixed-size buckets. -/
def bucketNodes (parentPath : String) (keys : List String) (bucketSize : Nat) :
    List TreeNode :=
  (List.range (bucketCount keys.length bucketSize)).map
    (bucketNode parentPath keys bucketSize)

/-- The collapsed default-properties node of a window root. -/
def defaultPropsNode (parentPath : String) (defaults : List String) : TreeNode :=
  { name := "[default properties]", path := parentPath ++ "/##-default",
    contents := .defaultPropsOf defaults }

/-- Modelled from the spec: for a window-class root, the known default
property names are removed from the individual node list and collapsed
into one synthetic node (src/unnamed/part_000 lines 154-174 fix the
node's name and `##-default` path). `windowProps` is the host-supplied
default-property allowlist, external to this fragment. -/
def makeDefaultPropsBucket (windowProps : List String) (parentPath : String)
    (own : List (String × PropDesc)) (keys : List String) : List TreeNode :=
  let userNames := keys.filter (fun k => !windowProps.contains k)
  let defaults := keys.filter (fun k => windowProps.contains k)
  userNames.map (mkPropNode parentPath own) ++
    (if defaults.isEmpty then [] else [defaultPropsNode parentPath defaults])

/-- Modelled from the spec: `makeNodesForProperties` (implemented in
utils outside this fragment; behaviour pinned by the tests of
src/unnamed/part_000) at an explicit bucket size — sort and filter the
own keys; group them into numeric buckets when they exceed the bucket
size, collapse window default properties for a window-class root, list
them individually otherwise; append the `__proto__` node when a prototype
is present. -/
def makeNodesForPropertiesWith (windowProps : List String) (bucketSize : Nat)
    (objProps : ObjProps) (parent : RootNode) : List TreeNode :=
  let keys := propKeys objProps.ownProperties
  let nodes :=
    if bucketSize < keys.length then
      bucketNodes parent.path keys bucketSize
    else if parent.cls == some "Window" then
      makeDefaultPropsBucket windowProps parent.path objProps.ownProperties keys
    else
      keys.map (mkPropNode parent.path objProps.ownProperties)
  nodes ++
    (match objProps.prototype with
     | some p => [protoNode parent.path p]
     | none => [])

/-- Modelled from the spec: `makeNodesForProperties` at the default
bucket size of 100. -/
def makeNodesForProperties (windowProps : List String) (objProps : ObjProps)
    (parent : RootNode) : List TreeNode :=
  makeNodesForPropertiesWith windowProps 100 objProps parent

/-- An item as `isDefault` receives one: a record with a `name`. -/
structure InspectorItem where
  name : String

/-- Modelled from the spec: `isDefault(item, roots)` — true exactly when
the tree has a single root whose value class is "Window" and the item's
name is in the known default-property set (src/unnamed/part_000 lines
176-193). -/
def isDefault (windowProps : List String) (item : InspectorItem)
    (roots : List RootNode) : Bool :=
  match roots with
  | [r] => r.cls == some "Window" && windowProps.contains item.name
  | _ => false

end ObjectInspector

/-! ## Theorems -/

/-- String append is left-cancellative (used to separate node paths). -/
theorem strAppend_cancel_left {a b c : String} (h : a ++ b = a ++ c) : b = c := by
  have hd : a.data ++ b.data = a.data ++ c.data := by
    have h2 := congrArg String.data h
    rwa [String.data_append, String.data_append] at h2
  exact String.ext (List.append_cancel_left hd)

/-- C2: the claim says `makeInfallible(f)` catches and logs the wrapped
handler's exceptions; in the source the `try`/`catch` is commented out,
so a throwing handler's exception reaches the wrapper's caller. This
theorem evaluates the code at the failing input: a handler that throws. -/
theorem makeInfallible_propagates :
    DevToolsUtils.makeInfallible (fun _ => .error "Error: boom") none [] =
      .error "Error: boom" := rfl

/-- C9: `assert` throws (and logs the assertion failure) exactly when
assertions are enabled (a DEBUG or DEBUG_JS_MODULES build, or the testing
flag) and the condition is falsy; with assertions disabled it is a no-op
for every condition and message. -/
theorem assert_spec (ac : DevToolsUtils.AppConstantsFlags) (testing : Bool)
    (condition : JSVal) (message : String) :
    (((DevToolsUtils.assert ac testing condition message).1 =
        .error ("Assertion failure: " ++ message)) ↔
      (DevToolsUtils.assertEnabled ac testing = true ∧ truthy condition = false))
    ∧ (DevToolsUtils.assertEnabled ac testing = false →
        DevToolsUtils.assert ac testing condition message = (.ok (), []))
    ∧ (DevToolsUtils.assertEnabled ac testing = true → truthy condition = false →
        DevToolsUtils.assert ac testing condition message =
          (.error ("Assertion failure: " ++ message),
           [DevToolsUtils.reportExceptionMsg "DevToolsUtils.assert"
              ("Assertion failure: " ++ message)])) := by
  cases h1 : DevToolsUtils.assertEnabled ac testing <;>
    cases h2 : truthy condition <;>
      simp [DevToolsUtils.assert, DevToolsUtils.reallyAssert, h1, h2]

/-- C8: `safeErrorString` totally computes a string (the Lean result type
embeds that no exception escapes); when the value's own `toString` throws
or yields a non-string it falls back to `Object.prototype.toString`, and
when a truthy string stack and numeric line/column numbers are available
they are appended to the output. -/
theorem safeErrorString_spec (e : DevToolsUtils.ErrVal) :
    (∀ u, e.toStr = .error u →
      DevToolsUtils.safeErrorString e = e.protoToString)
    ∧ (∀ v, e.toStr = .ok v → typeofJS v ≠ "string" →
      DevToolsUtils.safeErrorString e = e.protoToString)
    ∧ (∀ s stv st l c, e.toStr = .ok (.vStr s) → e.stackAccess = .ok stv →
        truthy stv = true → e.stackToStr = .ok (.vStr st) →
        e.lineNumberAccess = .ok (.vNum l) → e.columnNumberAccess = .ok (.vNum c) →
      DevToolsUtils.safeErrorString e =
        s ++ "\nStack: " ++ st ++ "Line: " ++ toString l ++ ", column: " ++ toString c) := by
  obtain ⟨ts, sa, sts, ln, cn, pts⟩ := e
  refine ⟨?_, ?_, ?_⟩
  · intro u h
    subst h
    rfl
  · intro v h hns
    subst h
    cases v <;> try rfl
    exact absurd rfl hns
  · intro s stv st l c h1 h2 h3 h4 h5 h6
    subst h1; subst h2; subst h4; subst h5; subst h6
    simp [DevToolsUtils.safeErrorString, DevToolsUtils.safeErrorStringBody, bind, Except.bind, h3]
    try rfl

/-- C8 witness: an error value whose `toString` throws satisfies the
fallback conjunct's hypothesis and computes the generic
`Object.prototype.toString` result, and a well-behaved error value with
a truthy string stack and numeric line/column satisfies every hypothesis
of the appending conjunct and computes the appended output. -/
theorem safeErrorString_spec_witness :
    ((⟨.error (), .ok .vNull, .ok .vNull, .ok .vNull, .ok .vNull,
        "[object Object]"⟩ : DevToolsUtils.ErrVal).toStr = .error ())
    ∧ DevToolsUtils.safeErrorString
        ⟨.error (), .ok .vNull, .ok .vNull, .ok .vNull, .ok .vNull,
          "[object Object]"⟩ = "[object Object]"
    ∧ ((⟨.ok (.vStr "boom"), .ok (.vStr "st"), .ok (.vStr "st"), .ok (.vNum 3),
        .ok (.vNum 7), "[object Error]"⟩ : DevToolsUtils.ErrVal).toStr =
      .ok (.vStr "boom"))
    ∧ truthy (.vStr "st") = true
    ∧ DevToolsUtils.safeErrorString
        ⟨.ok (.vStr "boom"), .ok (.vStr "st"), .ok (.vStr "st"), .ok (.vNum 3),
          .ok (.vNum 7), "[object Error]"⟩ =
      "boom" ++ "\nStack: " ++ "st" ++ "Line: " ++ toString (3 : Int) ++ ", column: " ++
        toString (7 : Int) :=
  ⟨rfl, (safeErrorString_spec _).1 () rfl, rfl, rfl,
    (safeErrorString_spec _).2.2 "boom" (.vStr "st") "st" 3 7 rfl rfl rfl rfl rfl rfl⟩

/-- C4: whenever `entriesIterator` throws, `safeEntriesIterator` logs the
error and returns the empty entry list; by its total result type the
exception never propagates out of `safeEntriesIterator`. -/
theorem safeEntriesIterator_spec (props : GripMap.GripMapProps)
    (object : GripMap.GripObject) (max? : Option Nat) (err : String)
    (h : GripMap.entriesIterator props object (max?.getD 3) = .error err) :
    GripMap.safeEntriesIterator props object max? = ([], [err]) := by
  simp [GripMap.safeEntriesIterator, h]

/-- C4 witness: a nullish grip object makes `entriesIterator` throw on
the `object.preview` access; `safeEntriesIterator` logs it and yields no
entries. -/
theorem safeEntriesIterator_spec_witness :
    (GripMap.entriesIterator ⟨none⟩ .nullish ((none : Option Nat).getD 3) =
      .error "TypeError: object is null or undefined")
    ∧ GripMap.safeEntriesIterator ⟨none⟩ .nullish none =
      ([], ["TypeError: object is null or undefined"]) :=
  ⟨rfl, safeEntriesIterator_spec ⟨none⟩ .nullish none _ rfl⟩

/-- Over a filter that computes a pure predicate of the entry, the
`reduce` of `getEntriesIndexes` collects the first satisfying positions
up to the free space left in the accumulator. -/
theorem getEntriesIndexesGo_pure (p : JSVal × JSVal → Bool) (f : GripMap.EntryFilter)
    (hf : ∀ k e, f (GripMap.typeFor (GripMap.extractValue e)) (GripMap.extractValue e) k =
      .ok (p (k, e))) (max : Nat) :
    ∀ (entries : List (JSVal × JSVal)) (i : Nat) (acc : List Nat),
      acc.length ≤ max →
      GripMap.getEntriesIndexesGo f max entries i acc =
        .ok (acc ++ (GripMap.entryIndexesGo p entries i).take (max - acc.length)) := by
  intro entries
  induction entries with
  | nil =>
    intro i acc _
    simp [GripMap.getEntriesIndexesGo, GripMap.entryIndexesGo]
  | cons kv rest ih =>
    obtain ⟨k, e⟩ := kv
    intro i acc hacc
    by_cases hlt : acc.length < max
    · simp only [GripMap.getEntriesIndexesGo]
      rw [if_pos hlt, hf k e]
      cases hp : p (k, e) with
      | true =>
        show GripMap.getEntriesIndexesGo f max rest (i + 1)
            (if true = true then acc ++ [i] else acc) = _
        rw [show (if true = true then acc ++ [i] else acc) = acc ++ [i] from rfl]
        rw [ih (i + 1) (acc ++ [i]) (by simp; omega)]
        have h1 : max - acc.length = (max - (acc ++ [i]).length) + 1 := by
          simp only [List.length_append, List.length_cons, List.length_nil]
          omega
        simp [GripMap.entryIndexesGo, hp, h1, List.take_succ_cons]
      | false =>
        show GripMap.getEntriesIndexesGo f max rest (i + 1)
            (if false = true then acc ++ [i] else acc) = _
        rw [show (if false = true then acc ++ [i] else acc) = acc from rfl]
        rw [ih (i + 1) acc hacc]
        simp [GripMap.entryIndexesGo, hp]
    · simp only [GripMap.getEntriesIndexesGo]
      rw [if_neg hlt]
      rw [ih (i + 1) acc hacc]
      have h0 : max - acc.length = 0 := by omega
      cases hp : p (k, e) <;> simp [GripMap.entryIndexesGo, hp, h0]

/-- The default filter is the pure predicate `interestingEntry`. -/
theorem default_filter_pure :
    ∀ (k e : JSVal),
      (fun t v (_ : JSVal) => (Except.ok (GripMap.defaultIsInterestingEntry t v) : Except String Bool))
        (GripMap.typeFor (GripMap.extractValue e)) (GripMap.extractValue e) k =
      .ok (GripMap.interestingEntry (k, e)) :=
  fun _ _ => rfl

/-- The negated default filter is the complement predicate. -/
theorem not_default_filter_pure :
    ∀ (k e : JSVal),
      (GripMap.notFilter (fun t v _ => .ok (GripMap.defaultIsInterestingEntry t v)))
        (GripMap.typeFor (GripMap.extractValue e)) (GripMap.extractValue e) k =
      .ok ((fun kv => !GripMap.interestingEntry kv) (k, e)) :=
  fun _ _ => rfl

/-- A position returned by `entryIndexesGo` addresses an entry that
satisfies the predicate. -/
theorem mem_entryIndexesGo (p : JSVal × JSVal → Bool) :
    ∀ (entries : List (JSVal × JSVal)) (i j : Nat), j ∈ GripMap.entryIndexesGo p entries i →
      i ≤ j ∧ ∃ kv, entries.get? (j - i) = some kv ∧ p kv = true := by
  intro entries
  induction entries with
  | nil => intro i j h; simp [GripMap.entryIndexesGo] at h
  | cons kv rest ih =>
    intro i j h
    simp only [GripMap.entryIndexesGo] at h
    by_cases hp : p kv
    · rw [if_pos hp] at h
      rcases List.mem_cons.mp h with rfl | h2
      · exact ⟨le_refl _, ⟨kv, by simp, hp⟩⟩
      · obtain ⟨hij, kv', hget, hkv'⟩ := ih (i + 1) j h2
        refine ⟨by omega, kv', ?_, hkv'⟩
        have heq : j - i = (j - (i + 1)) + 1 := by omega
        rw [heq]
        simpa using hget
    · rw [if_neg hp] at h
      obtain ⟨hij, kv', hget, hkv'⟩ := ih (i + 1) j h
      refine ⟨by omega, kv', ?_, hkv'⟩
      have heq : j - i = (j - (i + 1)) + 1 := by omega
      rw [heq]
      simpa using hget

/-- The satisfying and non-satisfying positions together count every
entry. -/
theorem entryIndexesGo_length_add (p : JSVal × JSVal → Bool) :
    ∀ (entries : List (JSVal × JSVal)) (i : Nat),
      (GripMap.entryIndexesGo p entries i).length +
        (GripMap.entryIndexesGo (fun kv => !p kv) entries i).length = entries.length := by
  intro entries
  induction entries with
  | nil => intro i; simp [GripMap.entryIndexesGo]
  | cons kv rest ih =>
    intro i
    cases hp : p kv <;> simp [GripMap.entryIndexesGo, hp] <;>
      have := ih (i + 1) <;> omega

/-- No position is both interesting and uninteresting. -/
theorem entryIndexes_disjoint (p : JSVal × JSVal → Bool)
    (entries : List (JSVal × JSVal)) (j : Nat)
    (h1 : j ∈ GripMap.entryIndexesWhere p entries)
    (h2 : j ∈ GripMap.entryIndexesWhere (fun kv => !p kv) entries) : False := by
  obtain ⟨-, kv, hget, hp⟩ := mem_entryIndexesGo p entries 0 j h1
  obtain ⟨-, kv', hget', hp'⟩ := mem_entryIndexesGo _ entries 0 j h2
  rw [hget] at hget'
  cases hget'
  simp [hp] at hp'

/-- A `mapM` in `Except` of a function that succeeds pointwise is the
`map` of its results. -/
theorem exceptMapM_ok {γ δ : Type} (g : γ → Except String δ) (f : γ → δ) :
    ∀ l : List γ, (∀ x ∈ l, g x = .ok (f x)) → l.mapM g = .ok (l.map f) := by
  intro l
  induction l with
  | nil => intro _; rfl
  | cons x xs ih =>
    intro h
    rw [List.mapM_cons, h x (by simp), ih (fun y hy => h y (by simp [hy]))]
    rfl

/-- Rendering succeeds over in-range indexes of non-nullish entries and
produces one `PropRep` per selected index in ascending index order. -/
theorem getEntriesRender_ok (entries : List (JSVal × JSVal)) (idxs : List Nat)
    (hin : ∀ j ∈ idxs, ∃ kv, entries.get? j = some kv ∧ GripMap.nullish kv.2 = false) :
    GripMap.getEntriesRender entries idxs =
      .ok ((GripMap.sortIndexes idxs).enum.map
        (GripMap.renderedAt entries (GripMap.sortIndexes idxs).length entries.length)) := by
  simp only [GripMap.getEntriesRender]
  apply exceptMapM_ok
  intro x hx
  obtain ⟨pos, j⟩ := x
  have hj : j ∈ GripMap.sortIndexes idxs := by
    obtain ⟨hlt, heq⟩ := List.mem_enum hx
    rw [heq]
    exact List.getElem_mem hlt
  have hj2 : j ∈ idxs := ((List.perm_insertionSort _ idxs).mem_iff).mp hj
  obtain ⟨⟨k, e⟩, hget, hnn⟩ := hin j hj2
  simp only [GripMap.renderedAt, hget]
  cases e <;> simp [GripMap.nullish] at hnn <;> rfl

/-- Reduction of an `Except` bind at an ok value. -/
theorem bindOk {eps gam del : Type} (a : gam) (f : gam → Except eps del) :
    (bind (Except.ok a) f : Except eps del) = f a := rfl

/-- In `Except`, `pure` is `Except.ok`. -/
theorem pureOk {eps gam : Type} (a : gam) : (pure a : Except eps gam) = .ok a := rfl

/-- C3: under the default filter, the map renderer's entry selection
displays at most `max` entries; interesting entries (boolean, number,
non-empty string values) are selected first, uninteresting entries
back-fill only when fewer than `max` interesting entries exist, and the
displayed entries keep their original relative order (indexes sorted
ascending). The equation exhibits the exact rendered list; `hwf` keeps
rendering itself from throwing (that failure mode is claim C4's). -/
theorem entriesIterator_selection (entries : List (JSVal × JSVal)) (max : Nat)
    (hwf : ∀ kv ∈ entries, GripMap.nullish kv.2 = false) :
    (GripMap.entriesIterator ⟨none⟩ (.obj (some (some entries))) max =
      .ok (((GripMap.selectedIndexes entries max).enum.map
          (GripMap.renderedAt entries (GripMap.selectedIndexes entries max).length
            entries.length)) ++
        (if (GripMap.selectedIndexes entries max).length < entries.length then
          [.moreCaption (toString ((entries.length : Int) - max) ++ " more…")] else [])))
    ∧ (GripMap.selectedIndexes entries max).length ≤ max
    ∧ List.Sorted (· ≤ ·) (GripMap.selectedIndexes entries max)
    ∧ (∀ i ∈ (GripMap.entryIndexesWhere GripMap.interestingEntry entries).take max,
        i ∈ GripMap.selectedIndexes entries max)
    ∧ (∀ j ∈ GripMap.selectedIndexes entries max,
        j ∈ GripMap.entryIndexesWhere (fun kv => !GripMap.interestingEntry kv) entries →
          (GripMap.entryIndexesWhere GripMap.interestingEntry entries).length < max
          ∧ ∀ i ∈ GripMap.entryIndexesWhere GripMap.interestingEntry entries,
              i ∈ GripMap.selectedIndexes entries max) := by
  have hIdx : GripMap.getEntriesIndexes entries max
      (fun t v _ => .ok (GripMap.defaultIsInterestingEntry t v)) =
      .ok ((GripMap.entryIndexesWhere GripMap.interestingEntry entries).take max) := by
    unfold GripMap.getEntriesIndexes
    rw [getEntriesIndexesGo_pure GripMap.interestingEntry _ default_filter_pure max entries 0 []
      (by simp)]
    simp [GripMap.entryIndexesWhere]
  have hUIdx : ∀ m, GripMap.getEntriesIndexes entries m
      (GripMap.notFilter (fun t v _ => .ok (GripMap.defaultIsInterestingEntry t v))) =
      .ok ((GripMap.entryIndexesWhere (fun kv => !GripMap.interestingEntry kv) entries).take m) := by
    intro m
    unfold GripMap.getEntriesIndexes
    rw [getEntriesIndexesGo_pure (fun kv => !GripMap.interestingEntry kv) _
      not_default_filter_pure m entries 0 [] (by simp)]
    simp [GripMap.entryIndexesWhere]
  have hsum := entryIndexesGo_length_add GripMap.interestingEntry entries 0
  have hale : ((GripMap.entryIndexesWhere GripMap.interestingEntry entries).take max).length ≤ max :=
    List.length_take_le _ _
  have hamin : ((GripMap.entryIndexesWhere GripMap.interestingEntry entries).take max).length =
      min max (GripMap.entryIndexesWhere GripMap.interestingEntry entries).length :=
    List.length_take _ _
  -- the combined raw index list before sorting
  have hUempty : ¬ (((GripMap.entryIndexesWhere GripMap.interestingEntry entries).take max).length < max ∧
      ((GripMap.entryIndexesWhere GripMap.interestingEntry entries).take max).length < entries.length) →
      (GripMap.entryIndexesWhere (fun kv => !GripMap.interestingEntry kv) entries).take
        (max - ((GripMap.entryIndexesWhere GripMap.interestingEntry entries).take max).length) = [] := by
    intro hneg
    rcases not_and_or.mp hneg with h | h
    · have h0 : max - ((GripMap.entryIndexesWhere GripMap.interestingEntry entries).take max).length = 0 := by
        omega
      rw [h0, List.take_zero]
    · have hIlen : (GripMap.entryIndexesWhere GripMap.interestingEntry entries).length ≥ entries.length := by
        simp only [GripMap.entryIndexesWhere] at *
        omega
      have hUlen : (GripMap.entryIndexesWhere (fun kv => !GripMap.interestingEntry kv) entries).length = 0 := by
        simp only [GripMap.entryIndexesWhere] at *
        omega
      rw [List.length_eq_zero.mp hUlen]
      simp
  have hin : ∀ j ∈
      ((GripMap.entryIndexesWhere GripMap.interestingEntry entries).take max ++
        (GripMap.entryIndexesWhere (fun kv => !GripMap.interestingEntry kv) entries).take
          (max - ((GripMap.entryIndexesWhere GripMap.interestingEntry entries).take max).length)),
      ∃ kv, entries.get? j = some kv ∧ GripMap.nullish kv.2 = false := by
    intro j hj
    have hget : ∃ kv, entries.get? j = some kv := by
      rcases List.mem_append.mp hj with h | h
      · obtain ⟨-, kv, hg, -⟩ :=
          mem_entryIndexesGo _ entries 0 j (List.mem_of_mem_take h)
        exact ⟨kv, by simpa using hg⟩
      · obtain ⟨-, kv, hg, -⟩ :=
          mem_entryIndexesGo _ entries 0 j (List.mem_of_mem_take h)
        exact ⟨kv, by simpa using hg⟩
    obtain ⟨kv, hg⟩ := hget
    exact ⟨kv, hg, hwf kv (List.get?_mem hg)⟩
  have hrender := getEntriesRender_ok entries _ hin
  have hsellen : (GripMap.selectedIndexes entries max).length =
      ((GripMap.entryIndexesWhere GripMap.interestingEntry entries).take max ++
        (GripMap.entryIndexesWhere (fun kv => !GripMap.interestingEntry kv) entries).take
          (max - ((GripMap.entryIndexesWhere GripMap.interestingEntry entries).take max).length)).length := by
    simp [GripMap.selectedIndexes, GripMap.sortIndexes, List.length_insertionSort]
  refine ⟨?_, ?_, ?_, ?_, ?_⟩
  · -- the rendered-output equation
    rw [show GripMap.selectedIndexes entries max = GripMap.sortIndexes
        ((GripMap.entryIndexesWhere GripMap.interestingEntry entries).take max ++
          (GripMap.entryIndexesWhere (fun kv => !GripMap.interestingEntry kv) entries).take
            (max - ((GripMap.entryIndexesWhere GripMap.interestingEntry entries).take max).length))
      from rfl]
    simp only [GripMap.entriesIterator, GripMap.previewEntries, Option.getD_none,
      Option.getD_some, bindOk]
    rw [hIdx, bindOk]
    by_cases hcond : ((GripMap.entryIndexesWhere GripMap.interestingEntry entries).take max).length < max ∧
        ((GripMap.entryIndexesWhere GripMap.interestingEntry entries).take max).length < entries.length
    · rw [if_pos hcond, hUIdx, bindOk, pureOk, bindOk, hrender, bindOk]
      simp only [List.length_map, List.enum_length]
      by_cases hfin : (GripMap.sortIndexes
          ((GripMap.entryIndexesWhere GripMap.interestingEntry entries).take max ++
            (GripMap.entryIndexesWhere (fun kv => !GripMap.interestingEntry kv) entries).take
              (max - ((GripMap.entryIndexesWhere GripMap.interestingEntry entries).take max).length))).length <
          entries.length
      · rw [if_pos hfin, if_pos hfin]
        rfl
      · rw [if_neg hfin, if_neg hfin]
        simp [pureOk]
    · rw [if_neg hcond, pureOk, bindOk]
      have hU0 := hUempty hcond
      rw [hU0, List.append_nil] at hrender ⊢
      rw [hrender, bindOk]
      simp only [List.length_map, List.enum_length]
      by_cases hfin : (GripMap.sortIndexes
          ((GripMap.entryIndexesWhere GripMap.interestingEntry entries).take max)).length <
          entries.length
      · rw [if_pos hfin, if_pos hfin]
        rfl
      · rw [if_neg hfin, if_neg hfin]
        simp [pureOk]
  · -- at most max entries
    rw [hsellen]
    have h2 : ((GripMap.entryIndexesWhere (fun kv => !GripMap.interestingEntry kv) entries).take
        (max - ((GripMap.entryIndexesWhere GripMap.interestingEntry entries).take max).length)).length ≤
        max - ((GripMap.entryIndexesWhere GripMap.interestingEntry entries).take max).length :=
      List.length_take_le _ _
    simp only [List.length_append]
    omega
  · -- indexes sorted ascending
    show List.Sorted (· ≤ ·) (GripMap.sortIndexes _)
    exact List.sorted_insertionSort _ _
  · -- the first max interesting entries are always displayed
    intro i hi
    show i ∈ GripMap.sortIndexes _
    exact ((List.perm_insertionSort _ _).mem_iff).mpr (List.mem_append_left _ hi)
  · -- uninteresting entries appear only when interesting ones run short
    intro j hj hjU
    have hjraw : j ∈
        ((GripMap.entryIndexesWhere GripMap.interestingEntry entries).take max ++
          (GripMap.entryIndexesWhere (fun kv => !GripMap.interestingEntry kv) entries).take
            (max - ((GripMap.entryIndexesWhere GripMap.interestingEntry entries).take max).length)) :=
      ((List.perm_insertionSort _ _).mem_iff).mp hj
    have hjtail : j ∈ (GripMap.entryIndexesWhere (fun kv => !GripMap.interestingEntry kv) entries).take
        (max - ((GripMap.entryIndexesWhere GripMap.interestingEntry entries).take max).length) := by
      rcases List.mem_append.mp hjraw with h | h
      · exact absurd hjU (fun hc =>
          entryIndexes_disjoint GripMap.interestingEntry entries j (List.mem_of_mem_take h) hc)
      · exact h
    have hgap : 0 < max - ((GripMap.entryIndexesWhere GripMap.interestingEntry entries).take max).length := by
      by_contra hc
      rw [Nat.le_zero.mp (Nat.not_lt.mp hc), List.take_zero] at hjtail
      simp at hjtail
    have hIlt : (GripMap.entryIndexesWhere GripMap.interestingEntry entries).length < max := by
      omega
    refine ⟨hIlt, ?_⟩
    intro i hi
    have hi' : i ∈ (GripMap.entryIndexesWhere GripMap.interestingEntry entries).take max := by
      rw [List.take_of_length_le (le_of_lt hIlt)]
      exact hi
    show i ∈ GripMap.sortIndexes _
    exact ((List.perm_insertionSort _ _).mem_iff).mpr (List.mem_append_left _ hi')

/-- C3 witness: the spec's example — entries valued `true`, `""`, `1`
with limit 3; the selection hypotheses hold by computation. -/
theorem entriesIterator_selection_witness :
    (∀ kv ∈ [((JSVal.vStr "a"), JSVal.vBool true), (.vStr "b", .vStr ""), (.vStr "c", .vNum 1)],
        GripMap.nullish kv.2 = false)
    ∧ (GripMap.selectedIndexes
        [((JSVal.vStr "a"), JSVal.vBool true), (.vStr "b", .vStr ""), (.vStr "c", .vNum 1)] 3).length ≤ 3 :=
  ⟨by decide,
    (entriesIterator_selection
      [((JSVal.vStr "a"), JSVal.vBool true), (.vStr "b", .vStr ""), (.vStr "c", .vNum 1)] 3
      (by decide)).2.1⟩

/-- The lexicographic character-list order is total. -/
theorem charListLe_total : ∀ a b : List Char, charListLe a b = true ∨ charListLe b a = true := by
  intro a
  induction a with
  | nil => intro b; left; rfl
  | cons x xs ih =>
    intro b
    cases b with
    | nil => right; rfl
    | cons y ys =>
      simp only [charListLe]
      rcases Nat.lt_trichotomy x.toNat y.toNat with h | h | h
      · left; rw [if_pos h]
      · rcases ih ys with h2 | h2
        · left; rw [if_neg (by omega), if_pos h]; exact h2
        · right; rw [if_neg (by omega), if_pos h.symm]; exact h2
      · right; rw [if_pos h]

/-- The lexicographic character-list order is transitive. -/
theorem charListLe_trans : ∀ a b c : List Char,
    charListLe a b = true → charListLe b c = true → charListLe a c = true := by
  intro a
  induction a with
  | nil => intro b c _ _; rfl
  | cons x xs ih =>
    intro b c hab hbc
    cases b with
    | nil => simp [charListLe] at hab
    | cons y ys =>
      cases c with
      | nil => simp [charListLe] at hbc
      | cons z zs =>
        simp only [charListLe] at hab hbc ⊢
        by_cases h1 : x.toNat < y.toNat
        · by_cases h2 : y.toNat < z.toNat
          · rw [if_pos (by omega)]
          · by_cases h3 : y.toNat = z.toNat
            · rw [if_pos (by omega)]
            · rw [if_neg h2, if_neg h3] at hbc
              simp at hbc
        · by_cases h1e : x.toNat = y.toNat
          · rw [if_neg h1, if_pos h1e] at hab
            by_cases h2 : y.toNat < z.toNat
            · rw [if_pos (by omega)]
            · by_cases h3 : y.toNat = z.toNat
              · rw [if_neg h2, if_pos h3] at hbc
                rw [if_neg (by omega), if_pos (by omega)]
                exact ih ys zs hab hbc
              · rw [if_neg h2, if_neg h3] at hbc
                simp at hbc
          · rw [if_neg h1, if_neg h1e] at hab
            simp at hab

/-- The property-key order is total. -/
theorem keyLE_total : ∀ a b : String,
    ObjectInspector.keyLE a b = true ∨ ObjectInspector.keyLE b a = true := by
  intro a b
  cases ha : ObjectInspector.numKey a with
  | none =>
    cases hb : ObjectInspector.numKey b with
    | none => simpa [ObjectInspector.keyLE, ha, hb, jsStrLe] using
        charListLe_total a.data b.data
    | some y => right; simp [ObjectInspector.keyLE, ha, hb]
  | some x =>
    cases hb : ObjectInspector.numKey b with
    | none => left; simp [ObjectInspector.keyLE, ha, hb]
    | some y =>
      rcases Nat.le_total x y with h | h
      · left; simp [ObjectInspector.keyLE, ha, hb, h]
      · right; simp [ObjectInspector.keyLE, ha, hb, h]

/-- The property-key order is transitive. -/
theorem keyLE_trans : ∀ a b c : String, ObjectInspector.keyLE a b = true →
    ObjectInspector.keyLE b c = true → ObjectInspector.keyLE a c = true := by
  intro a b c hab hbc
  cases ha : ObjectInspector.numKey a with
  | some x =>
    cases hc : ObjectInspector.numKey c with
    | none => simp [ObjectInspector.keyLE, ha, hc]
    | some z =>
      cases hb : ObjectInspector.numKey b with
      | none =>
        rw [ObjectInspector.keyLE] at hbc
        simp [hb, hc] at hbc
      | some y =>
        rw [ObjectInspector.keyLE] at hab hbc
        simp only [ha, hb, hc, decide_eq_true_eq] at hab hbc
        simp [ObjectInspector.keyLE, ha, hc]
        omega
  | none =>
    cases hb : ObjectInspector.numKey b with
    | some y =>
      rw [ObjectInspector.keyLE] at hab
      simp [ha, hb] at hab
    | none =>
      cases hc : ObjectInspector.numKey c with
      | some z =>
        rw [ObjectInspector.keyLE] at hbc
        simp [hb, hc] at hbc
      | none =>
        rw [ObjectInspector.keyLE] at hab hbc ⊢
        simp only [ha, hb, hc] at hab hbc ⊢
        exact charListLe_trans a.data b.data c.data hab hbc

/-- A key order fact transfers from `keyLE`-sortedness to the claim's
three ordering conjuncts. -/
theorem keyLE_implies_order {a b : String} (hab : ObjectInspector.keyLE a b = true) :
    ((ObjectInspector.numKey b).isSome → (ObjectInspector.numKey a).isSome)
    ∧ (∀ x y, ObjectInspector.numKey a = some x → ObjectInspector.numKey b = some y → x ≤ y)
    ∧ (ObjectInspector.numKey a = none → ObjectInspector.numKey b = none → jsStrLe a b = true) := by
  refine ⟨?_, ?_, ?_⟩
  · intro hb
    cases ha : ObjectInspector.numKey a with
    | some x => rfl
    | none =>
      cases hbv : ObjectInspector.numKey b with
      | none => rw [hbv] at hb; simp at hb
      | some y =>
        rw [ObjectInspector.keyLE] at hab
        simp [ha, hbv] at hab
  · intro x y hx hy
    rw [ObjectInspector.keyLE] at hab
    simp only [hx, hy, decide_eq_true_eq] at hab
    exact hab
  · intro hx hy
    rw [ObjectInspector.keyLE] at hab
    simpa only [hx, hy] using hab

/-- The filtered, sorted key list of the builder is `keyLE`-sorted. -/
theorem propKeys_sorted (own : List (String × ObjectInspector.PropDesc)) :
    List.Sorted (fun a b => ObjectInspector.keyLE a b = true) (ObjectInspector.propKeys own) := by
  haveI : IsTotal String (fun a b => ObjectInspector.keyLE a b = true) := ⟨keyLE_total⟩
  haveI : IsTrans String (fun a b => ObjectInspector.keyLE a b = true) :=
    ⟨fun a b c => keyLE_trans a b c⟩
  exact List.Pairwise.filter _ (List.sorted_insertionSort _ _)

/-- C5 (spec-modelled): in the node sequence of `makeNodesForProperties`
for a non-window parent within the bucket threshold, numeric-looking keys
precede the non-numeric keys, numeric keys ascend by numeric value,
non-numeric keys ascend lexicographically, and the prototype node is
last. -/
theorem makeNodes_ordering (wp : List String)
    (own : List (String × ObjectInspector.PropDesc)) (parent : ObjectInspector.RootNode)
    (p : JSVal) (hwin : parent.cls ≠ some "Window")
    (hsize : (ObjectInspector.propKeys own).length ≤ 100) :
    (ObjectInspector.makeNodesForProperties wp ⟨own, some p⟩ parent =
      (ObjectInspector.propKeys own).map (ObjectInspector.mkPropNode parent.path own) ++
        [ObjectInspector.protoNode parent.path p])
    ∧ ((ObjectInspector.makeNodesForProperties wp ⟨own, some p⟩ parent).getLast? =
        some (ObjectInspector.protoNode parent.path p))
    ∧ List.Pairwise (fun a b =>
        ((ObjectInspector.numKey b).isSome → (ObjectInspector.numKey a).isSome)
        ∧ (∀ x y, ObjectInspector.numKey a = some x → ObjectInspector.numKey b = some y → x ≤ y)
        ∧ (ObjectInspector.numKey a = none → ObjectInspector.numKey b = none →
            jsStrLe a b = true)) (ObjectInspector.propKeys own) := by
  have hbeq : (parent.cls == some "Window") = false := by
    simpa using hwin
  have heq : ObjectInspector.makeNodesForProperties wp ⟨own, some p⟩ parent =
      (ObjectInspector.propKeys own).map (ObjectInspector.mkPropNode parent.path own) ++
        [ObjectInspector.protoNode parent.path p] := by
    simp only [ObjectInspector.makeNodesForProperties, ObjectInspector.makeNodesForPropertiesWith]
    rw [if_neg (Nat.not_lt.mpr hsize),
      if_neg (show ¬((parent.cls == some "Window") = true) by simp [hbeq])]
  refine ⟨heq, ?_, ?_⟩
  · rw [heq]
    exact List.getLast?_concat _
  · exact (propKeys_sorted own).imp keyLE_implies_order

/-- C5 witness: the repository's "sorts keys" fixture (keys `bar`, `1`,
`11`, `2`, `_bar`) under a plain root. -/
theorem makeNodes_ordering_witness :
    ((⟨"root", none⟩ : ObjectInspector.RootNode).cls ≠ some "Window")
    ∧ ((ObjectInspector.propKeys
        [("bar", ⟨some .vNull, none, none⟩), ("1", ⟨some .vNull, none, none⟩),
         ("11", ⟨some .vNull, none, none⟩), ("2", ⟨some .vNull, none, none⟩),
         ("_bar", ⟨some .vNull, none, none⟩)]).length ≤ 100)
    ∧ ((ObjectInspector.makeNodesForProperties ["location"]
        ⟨[("bar", ⟨some .vNull, none, none⟩), ("1", ⟨some .vNull, none, none⟩),
          ("11", ⟨some .vNull, none, none⟩), ("2", ⟨some .vNull, none, none⟩),
          ("_bar", ⟨some .vNull, none, none⟩)], some (.vObj (some "bla") none)⟩
        ⟨"root", none⟩).getLast? =
      some (ObjectInspector.protoNode "root" (.vObj (some "bla") none))) :=
  ⟨by decide, by decide,
    (makeNodes_ordering ["location"]
      [("bar", ⟨some .vNull, none, none⟩), ("1", ⟨some .vNull, none, none⟩),
       ("11", ⟨some .vNull, none, none⟩), ("2", ⟨some .vNull, none, none⟩),
       ("_bar", ⟨some .vNull, none, none⟩)]
      ⟨"root", none⟩ (.vObj (some "bla") none) (by decide) (by decide)).2.1⟩

/-- C6 (spec-modelled): when the filtered property count exceeds the
bucket size 100 (an oversized indexed collection: every key numeric),
the builder emits one node per consecutive 100-key bucket — the final
bucket partial — with synthetic paths `bucket1` .. `bucketN`, followed by
the `__proto__` node. -/
theorem makeNodes_buckets (wp : List String)
    (own : List (String × ObjectInspector.PropDesc)) (parent : ObjectInspector.RootNode)
    (p : JSVal)
    (hnum : ∀ k ∈ own.map (·.1), (ObjectInspector.numKey k).isSome)
    (hsize : 100 < (ObjectInspector.propKeys own).length) :
    (ObjectInspector.makeNodesForProperties wp ⟨own, some p⟩ parent =
      (List.range (ObjectInspector.bucketCount (ObjectInspector.propKeys own).length 100)).map
          (ObjectInspector.bucketNode parent.path (ObjectInspector.propKeys own) 100) ++
        [ObjectInspector.protoNode parent.path p])
    ∧ ((ObjectInspector.makeNodesForProperties wp ⟨own, some p⟩ parent).map
          ObjectInspector.TreeNode.path =
        (List.range (ObjectInspector.bucketCount (ObjectInspector.propKeys own).length 100)).map
          (fun j => parent.path ++ "/bucket" ++ toString (j + 1)) ++
          [parent.path ++ "/__proto__"])
    ∧ (∀ j, (ObjectInspector.bucketNode parent.path (ObjectInspector.propKeys own) 100 j).contents =
        .bucketOf (((ObjectInspector.propKeys own).drop (j * 100)).take 100))
    ∧ ObjectInspector.bucketCount (ObjectInspector.propKeys own).length 100 =
        ((ObjectInspector.propKeys own).length + 99) / 100 := by
  have heq : ObjectInspector.makeNodesForProperties wp ⟨own, some p⟩ parent =
      (List.range (ObjectInspector.bucketCount (ObjectInspector.propKeys own).length 100)).map
          (ObjectInspector.bucketNode parent.path (ObjectInspector.propKeys own) 100) ++
        [ObjectInspector.protoNode parent.path p] := by
    simp only [ObjectInspector.makeNodesForProperties, ObjectInspector.makeNodesForPropertiesWith]
    rw [if_pos hsize]
    rfl
  refine ⟨heq, ?_, fun j => rfl, ?_⟩
  · rw [heq, List.map_append, List.map_map]
    rfl
  · have h99 : (ObjectInspector.propKeys own).length + 100 - 1 =
        (ObjectInspector.propKeys own).length + 99 := by omega
    simp only [ObjectInspector.bucketCount, h99]

/-- C6 witness: 101 numeric keys `0` .. `100` (over the threshold) under
a plain root. -/
theorem makeNodes_buckets_witness :
    (∀ k ∈ ((List.range 101).map
        (fun i => (toString i, (⟨some .vNull, none, none⟩ : ObjectInspector.PropDesc)))).map (·.1),
      (ObjectInspector.numKey k).isSome)
    ∧ (100 < (ObjectInspector.propKeys ((List.range 101).map
        (fun i => (toString i, (⟨some .vNull, none, none⟩ : ObjectInspector.PropDesc))))).length)
    ∧ ObjectInspector.bucketCount
        (ObjectInspector.propKeys ((List.range 101).map
          (fun i => (toString i, (⟨some .vNull, none, none⟩ : ObjectInspector.PropDesc))))).length 100 =
        ((ObjectInspector.propKeys ((List.range 101).map
          (fun i => (toString i, (⟨some .vNull, none, none⟩ : ObjectInspector.PropDesc))))).length + 99) / 100 :=
  ⟨by decide, by decide,
    (makeNodes_buckets [] ((List.range 101).map
        (fun i => (toString i, (⟨some .vNull, none, none⟩ : ObjectInspector.PropDesc))))
      ⟨"root", none⟩ (.vObj (some "Array") none) (by decide) (by decide)).2.2.2⟩

/-- C7 (spec-modelled): for a window-class root, a concrete own property
whose name is in the default-property set is omitted from the individual
node list and collapsed into the single synthetic default-properties
node; for any non-window root the same name yields its normal individual
node; and `isDefault` answers true only for a single window-class root
with the name in the set. -/
theorem makeNodes_windowDefaults (wp : List String)
    (own : List (String × ObjectInspector.PropDesc)) (path : String)
    (p? : Option JSVal) (name : String)
    (hsize : (ObjectInspector.propKeys own).length ≤ 100)
    (hmem : name ∈ ObjectInspector.propKeys own)
    (hwp : wp.contains name = true) :
    (ObjectInspector.makeNodesForProperties wp ⟨own, p?⟩ ⟨path, some "Window"⟩ =
        ((ObjectInspector.propKeys own).filter (fun k => !wp.contains k)).map
            (ObjectInspector.mkPropNode path own) ++
          [ObjectInspector.defaultPropsNode path
            ((ObjectInspector.propKeys own).filter (fun k => wp.contains k))] ++
          (match p? with
           | some p => [ObjectInspector.protoNode path p]
           | none => []))
    ∧ (ObjectInspector.mkPropNode path own name ∉
        ObjectInspector.makeNodesForProperties wp ⟨own, p?⟩ ⟨path, some "Window"⟩)
    ∧ (ObjectInspector.defaultPropsNode path
          ((ObjectInspector.propKeys own).filter (fun k => wp.contains k)) ∈
        ObjectInspector.makeNodesForProperties wp ⟨own, p?⟩ ⟨path, some "Window"⟩)
    ∧ (∀ cls, cls ≠ some "Window" →
        ObjectInspector.mkPropNode path own name ∈
          ObjectInspector.makeNodesForProperties wp ⟨own, p?⟩ ⟨path, cls⟩)
    ∧ (∀ item roots, ObjectInspector.isDefault wp item roots = true →
        ∃ r, roots = [r] ∧ r.cls = some "Window" ∧ item.name ∈ wp) := by
  have hdef : name ∈ (ObjectInspector.propKeys own).filter (fun k => wp.contains k) :=
    List.mem_filter.mpr ⟨hmem, hwp⟩
  have hne : ((ObjectInspector.propKeys own).filter (fun k => wp.contains k)).isEmpty ≠ true := by
    intro hc
    rw [List.isEmpty_iff.mp hc] at hdef
    simp at hdef
  have heq : ObjectInspector.makeNodesForProperties wp ⟨own, p?⟩ ⟨path, some "Window"⟩ =
      ((ObjectInspector.propKeys own).filter (fun k => !wp.contains k)).map
          (ObjectInspector.mkPropNode path own) ++
        [ObjectInspector.defaultPropsNode path
          ((ObjectInspector.propKeys own).filter (fun k => wp.contains k))] ++
        (match p? with
         | some p => [ObjectInspector.protoNode path p]
         | none => []) := by
    simp only [ObjectInspector.makeNodesForProperties, ObjectInspector.makeNodesForPropertiesWith,
      ObjectInspector.makeDefaultPropsBucket]
    rw [if_neg (Nat.not_lt.mpr hsize), if_pos (by rfl), if_neg hne]
  refine ⟨heq, ?_, ?_, ?_, ?_⟩
  · rw [heq]
    intro hmem'
    rcases List.mem_append.mp hmem' with h | h
    · rcases List.mem_append.mp h with h2 | h2
      · obtain ⟨k, hk, hkeq⟩ := List.mem_map.mp h2
        have hkpath := congrArg ObjectInspector.TreeNode.path hkeq
        simp only [ObjectInspector.mkPropNode] at hkpath
        have hk2 : (path ++ "/") ++ k = (path ++ "/") ++ name := by
          simpa [String.append_assoc] using hkpath
        have hkname : k = name := strAppend_cancel_left hk2
        subst hkname
        have := (List.mem_filter.mp hk).2
        rw [hwp] at this
        simp at this
      · have := List.mem_singleton.mp h2
        simp [ObjectInspector.mkPropNode, ObjectInspector.defaultPropsNode] at this
    · cases p? with
      | some p =>
        have := List.mem_singleton.mp h
        simp [ObjectInspector.mkPropNode, ObjectInspector.protoNode] at this
      | none => simp at h
  · rw [heq]
    exact List.mem_append_left _ (List.mem_append_right _ (List.mem_singleton.mpr rfl))
  · intro cls hcls
    clear heq
    have hbeq : (cls == some "Window") = false := by simpa using hcls
    have heq2 : ObjectInspector.makeNodesForProperties wp ⟨own, p?⟩ ⟨path, cls⟩ =
        (ObjectInspector.propKeys own).map (ObjectInspector.mkPropNode path own) ++
          (match p? with
           | some p => [ObjectInspector.protoNode path p]
           | none => []) := by
      simp only [ObjectInspector.makeNodesForProperties,
        ObjectInspector.makeNodesForPropertiesWith]
      rw [if_neg (Nat.not_lt.mpr hsize),
        if_neg (show ¬((cls == some "Window") = true) by simp [hbeq])]
    rw [heq2]
    exact List.mem_append_left _ (List.mem_map_of_mem _ hmem)
  · intro item roots h
    cases roots with
    | nil => simp [ObjectInspector.isDefault] at h
    | cons r rest =>
      cases rest with
      | nil =>
        simp only [ObjectInspector.isDefault, Bool.and_eq_true] at h
        refine ⟨r, rfl, ?_, ?_⟩
        · simpa using h.1
        · simpa using h.2
      | cons r2 rest2 => simp [ObjectInspector.isDefault] at h

/-- C7 witness: the repository's window fixture — own properties `bar`
and `location`, default set containing `location`. -/
theorem makeNodes_windowDefaults_witness :
    ((ObjectInspector.propKeys
        [("bar", ⟨some .vNull, none, none⟩), ("location", ⟨some .vNull, none, none⟩)]).length ≤ 100)
    ∧ ("location" ∈ ObjectInspector.propKeys
        [("bar", ⟨some .vNull, none, none⟩), ("location", ⟨some .vNull, none, none⟩)])
    ∧ (["location"].contains "location" = true)
    ∧ (ObjectInspector.defaultPropsNode "root"
        ((ObjectInspector.propKeys
          [("bar", ⟨some .vNull, none, none⟩), ("location", ⟨some .vNull, none, none⟩)]).filter
            (fun k => ["location"].contains k)) ∈
      ObjectInspector.makeNodesForProperties ["location"]
        ⟨[("bar", ⟨some .vNull, none, none⟩), ("location", ⟨some .vNull, none, none⟩)], none⟩
        ⟨"root", some "Window"⟩) :=
  ⟨by decide, by decide, by decide,
    (makeNodes_windowDefaults ["location"]
      [("bar", ⟨some .vNull, none, none⟩), ("location", ⟨some .vNull, none, none⟩)]
      "root" none "location" (by decide) (by decide) (by decide)).2.2.1⟩

namespace DevToolsUtils

/-- Plain values and promises partition the input list. -/
theorem numValues_add_numPromises {α β : Type} (inputs : List (SettleInput α β)) :
    numValues inputs + numPromises inputs = inputs.length := by
  induction inputs with
  | nil => rfl
  | cons x rest ih => cases x <;> simp [numValues, numPromises] <;> omega

/-- The promise-position list counts the promises. -/
theorem length_promiseIndexesGo {α β : Type} :
    ∀ (rest : List (SettleInput α β)) (i : Nat),
      (promiseIndexesGo rest i).length = numPromises rest := by
  intro rest
  induction rest with
  | nil => intro i; rfl
  | cons x rest ih => intro i; cases x <;> simp [promiseIndexesGo, numPromises, ih]

/-- Positions in the promise-index list are exactly the positions holding
a promise input. -/
theorem mem_promiseIndexesGo {α β : Type} :
    ∀ (rest : List (SettleInput α β)) (i j : Nat),
      j ∈ promiseIndexesGo rest i ↔
        (i ≤ j ∧ ((∃ a, rest.get? (j - i) = some (.promiseOk a)) ∨
          (∃ e, rest.get? (j - i) = some (.promiseErr e)))) := by
  intro rest
  induction rest with
  | nil => intro i j; simp [promiseIndexesGo]
  | cons x rest ih =>
    intro i j
    cases x with
    | value a =>
      rw [show promiseIndexesGo (SettleInput.value a :: rest) i = promiseIndexesGo rest (i + 1)
        from rfl, ih (i + 1) j]
      constructor
      · rintro ⟨h1, h2⟩
        refine ⟨by omega, ?_⟩
        rw [show j - i = (j - (i + 1)) + 1 from by omega]
        simpa using h2
      · rintro ⟨h1, h2⟩
        by_cases hji : j = i
        · subst hji
          simp at h2
        · refine ⟨by omega, ?_⟩
          rw [show j - i = (j - (i + 1)) + 1 from by omega] at h2
          simpa using h2
    | promiseOk a =>
      rw [show promiseIndexesGo (SettleInput.promiseOk a :: rest) i =
        i :: promiseIndexesGo rest (i + 1) from rfl]
      rw [List.mem_cons, ih (i + 1) j]
      constructor
      · rintro (rfl | ⟨h1, h2⟩)
        · exact ⟨le_refl _, Or.inl ⟨a, by simp⟩⟩
        · refine ⟨by omega, ?_⟩
          rw [show j - i = (j - (i + 1)) + 1 from by omega]
          simpa using h2
      · rintro ⟨h1, h2⟩
        by_cases hji : j = i
        · exact Or.inl hji
        · right
          refine ⟨by omega, ?_⟩
          rw [show j - i = (j - (i + 1)) + 1 from by omega] at h2
          simpa using h2
    | promiseErr e =>
      rw [show promiseIndexesGo (SettleInput.promiseErr e :: rest) i =
        i :: promiseIndexesGo rest (i + 1) from rfl]
      rw [List.mem_cons, ih (i + 1) j]
      constructor
      · rintro (rfl | ⟨h1, h2⟩)
        · exact ⟨le_refl _, Or.inr ⟨e, by simp⟩⟩
        · refine ⟨by omega, ?_⟩
          rw [show j - i = (j - (i + 1)) + 1 from by omega]
          simpa using h2
      · rintro ⟨h1, h2⟩
        by_cases hji : j = i
        · exact Or.inl hji
        · right
          refine ⟨by omega, ?_⟩
          rw [show j - i = (j - (i + 1)) + 1 from by omega] at h2
          simpa using h2

/-- The promise-position list has no duplicates. -/
theorem nodup_promiseIndexesGo {α β : Type} :
    ∀ (rest : List (SettleInput α β)) (i : Nat), (promiseIndexesGo rest i).Nodup := by
  intro rest
  induction rest with
  | nil => intro i; simp [promiseIndexesGo]
  | cons x rest ih =>
    intro i
    have hge : ∀ j ∈ promiseIndexesGo rest (i + 1), i + 1 ≤ j := by
      intro j hj
      exact ((mem_promiseIndexesGo rest (i + 1) j).mp hj).1
    cases x with
    | value a => exact ih (i + 1)
    | promiseOk a =>
      refine List.nodup_cons.mpr ⟨fun hc => ?_, ih (i + 1)⟩
      have := hge i hc
      omega
    | promiseErr e =>
      refine List.nodup_cons.mpr ⟨fun hc => ?_, ih (i + 1)⟩
      have := hge i hc
      omega

/-- Pointwise description of the slots the synchronous loop writes. -/
theorem writeValues_get? {α β : Type} :
    ∀ (rest : List (SettleInput α β)) (i : Nat) (vals : List (Option α)) (j : Nat),
      (writeValues rest i vals).get? j =
        match (if i ≤ j then rest.get? (j - i) else none) with
        | some (.value a) => if j < vals.length then some (some a) else none
        | _ => vals.get? j := by
  intro rest
  induction rest with
  | nil =>
    intro i vals j
    by_cases hij : i ≤ j <;> simp [writeValues, hij]
  | cons x rest ih =>
    intro i vals j
    cases x with
    | value a =>
      show (writeValues rest (i + 1) (vals.set i (some a))).get? j = _
      rw [ih]
      rcases Nat.lt_trichotomy j i with hj | hj | hj
      · rw [if_neg (by omega), if_neg (by omega)]
        simp [List.get?_eq_getElem?, List.getElem?_set, show ¬ i = j from by omega]
      · rw [if_neg (by omega), if_pos (by omega), show j - i = 0 from by omega]
        simp only [List.get?_cons_zero]
        simp [List.get?_eq_getElem?, List.getElem?_set, show i = j from hj.symm ▸ rfl,
          List.length_set]
      · rw [if_pos (by omega), if_pos (by omega),
          show j - i = (j - (i + 1)) + 1 from by omega]
        simp only [List.get?_cons_succ]
        have hlen : (vals.set i (some a)).length = vals.length := List.length_set _ _ _
        have hget : (vals.set i (some a)).get? j = vals.get? j := by
          simp [List.get?_eq_getElem?, List.getElem?_set, show ¬ i = j from by omega]
        simp only [hlen, hget]
    | promiseOk a =>
      show (writeValues rest (i + 1) vals).get? j = _
      rw [ih]
      rcases Nat.lt_trichotomy j i with hj | hj | hj
      · rw [if_neg (by omega), if_neg (by omega)]
      · rw [if_neg (by omega), if_pos (by omega), show j - i = 0 from by omega]
        simp
      · rw [if_pos (by omega), if_pos (by omega),
          show j - i = (j - (i + 1)) + 1 from by omega]
        simp
    | promiseErr e =>
      show (writeValues rest (i + 1) vals).get? j = _
      rw [ih]
      rcases Nat.lt_trichotomy j i with hj | hj | hj
      · rw [if_neg (by omega), if_neg (by omega)]
      · rw [if_neg (by omega), if_pos (by omega), show j - i = 0 from by omega]
        simp
      · rw [if_pos (by omega), if_pos (by omega),
          show j - i = (j - (i + 1)) + 1 from by omega]
        simp

/-- The resolution array always has one slot per input. -/
theorem expectedValues_length {α β : Type} (inputs : List (SettleInput α β)) (pre : List Nat) :
    (expectedValues inputs pre).length = inputs.length := by
  simp [expectedValues]

/-- Pointwise description of the resolution array after the events `pre`. -/
theorem expectedValues_get? {α β : Type} (inputs : List (SettleInput α β))
    (pre : List Nat) (j : Nat) :
    (expectedValues inputs pre).get? j =
      if j < inputs.length then
        some (match inputs.get? j with
          | some (.value a) => some a
          | some (.promiseOk a) => if j ∈ pre then some a else none
          | _ => none)
      else none := by
  unfold expectedValues
  by_cases hj : j < inputs.length
  · rw [if_pos hj, List.get?_eq_getElem?, List.getElem?_map, List.getElem?_range hj]
    rfl
  · rw [if_neg hj, List.get?_eq_getElem?, List.getElem?_map,
      List.getElem?_eq_none (by simpa [List.length_range] using Nat.not_lt.mp hj)]
    rfl

/-- Delivering promise `j`'s resolution writes exactly slot `j`. -/
theorem expectedValues_set_resolve {α β : Type} (inputs : List (SettleInput α β))
    (pre : List Nat) (j : Nat) (a : α)
    (hj : inputs.get? j = some (.promiseOk a)) :
    (expectedValues inputs pre).set j (some a) = expectedValues inputs (pre ++ [j]) := by
  have hjl : j < inputs.length := by
    by_contra hc
    rw [List.get?_eq_none.mpr (Nat.not_lt.mp hc)] at hj
    cases hj
  apply List.ext_get?
  intro n
  by_cases hn : n = j
  · subst hn
    rw [List.get?_eq_getElem?, List.getElem?_set, if_pos rfl,
      if_pos (by rw [expectedValues_length]; exact hjl)]
    rw [expectedValues_get?, if_pos hjl, hj]
    simp
  · have hset : ((expectedValues inputs pre).set j (some a)).get? n =
        (expectedValues inputs pre).get? n := by
      rw [List.get?_eq_getElem?, List.getElem?_set,
        if_neg (show ¬ j = n from fun hc => hn (Eq.symm hc)),
        ← List.get?_eq_getElem?]
    rw [hset, expectedValues_get?, expectedValues_get?]
    by_cases hlt : n < inputs.length
    · rw [if_pos hlt, if_pos hlt]
      cases hget : inputs.get? n with
      | none => rfl
      | some x =>
        cases x with
        | value b => rfl
        | promiseOk b => simp [List.mem_append, hn]
        | promiseErr e => rfl
    · rw [if_neg hlt, if_neg hlt]

/-- Delivering promise `j`'s rejection leaves the resolution array as it
was (the slot keeps its hole). -/
theorem expectedValues_reject {α β : Type} (inputs : List (SettleInput α β))
    (pre : List Nat) (j : Nat) (e : β)
    (hj : inputs.get? j = some (.promiseErr e)) :
    expectedValues inputs (pre ++ [j]) = expectedValues inputs pre := by
  apply List.ext_get?
  intro n
  rw [expectedValues_get?, expectedValues_get?]
  by_cases hlt : n < inputs.length
  · rw [if_pos hlt, if_pos hlt]
    cases hget : inputs.get? n with
    | none => rfl
    | some x =>
      cases x with
      | value b => rfl
      | promiseErr e2 => rfl
      | promiseOk b =>
        have hn : n ≠ j := by
          intro hc
          subst hc
          rw [hget] at hj
          cases hj
        simp [List.mem_append, hn]
  · rw [if_neg hlt, if_neg hlt]

/-- The first rejection over concatenated event runs. -/
theorem firstRejection_append {α β : Type} (inputs : List (SettleInput α β))
    (l1 l2 : List Nat) :
    firstRejection inputs (l1 ++ l2) =
      (firstRejection inputs l1).or (firstRejection inputs l2) :=
  List.findSome?_append

/-- A resolving promise contributes no rejection. -/
theorem firstRejection_single_ok {α β : Type} (inputs : List (SettleInput α β))
    (j : Nat) (a : α) (hj : inputs.get? j = some (.promiseOk a)) :
    firstRejection inputs [j] = none := by
  have hj2 : inputs[j]? = some (SettleInput.promiseOk a) := by
    rw [← List.get?_eq_getElem?]; exact hj
  simp [firstRejection, List.findSome?, hj, hj2]

/-- A rejecting promise contributes its reason. -/
theorem firstRejection_single_err {α β : Type} (inputs : List (SettleInput α β))
    (j : Nat) (e : β) (hj : inputs.get? j = some (.promiseErr e)) :
    firstRejection inputs [j] = some e := by
  have hj2 : inputs[j]? = some (SettleInput.promiseErr e) := by
    rw [← List.get?_eq_getElem?]; exact hj
  simp [firstRejection, List.findSome?, hj, hj2]

/-- Slots stay untouched when the loop meets no plain value. -/
theorem writeValues_noValues {α β : Type} :
    ∀ (rest : List (SettleInput α β)) (i : Nat) (vals : List (Option α)),
      numValues rest = 0 → writeValues rest i vals = vals := by
  intro rest
  induction rest with
  | nil => intro i vals _; rfl
  | cons x rest ih =>
    intro i vals h
    cases x with
    | value a => simp [numValues] at h
    | promiseOk a => exact ih (i + 1) vals (by simpa [numValues] using h)
    | promiseErr e => exact ih (i + 1) vals (by simpa [numValues] using h)

/-- The synchronous loop is inert without plain values. -/
theorem settleInitLoop_noValues {α β : Type} :
    ∀ (rest : List (SettleInput α β)) (i : Nat) (s : SettleState α β),
      numValues rest = 0 → settleInitLoop rest i s = s := by
  intro rest
  induction rest with
  | nil => intro i s _; rfl
  | cons x rest ih =>
    intro i s h
    cases x with
    | value a => simp [numValues] at h
    | promiseOk a => exact ih (i + 1) s (by simpa [numValues] using h)
    | promiseErr e => exact ih (i + 1) s (by simpa [numValues] using h)

/-- Behaviour of the synchronous loop from a pristine state: each plain
value fires its resolver once; the deferred resolves during the loop
exactly when every pending callback was a value's. -/
theorem settleInitLoop_spec {α β : Type} :
    ∀ (rest : List (SettleInput α β)) (i c : Nat) (vals : List (Option α)),
      numValues rest ≤ c → 0 < c →
      settleInitLoop rest i ⟨c, vals, none, false, none⟩ =
        (if numValues rest = c then
          ⟨0, writeValues rest i vals, none, false,
            some (.ok (writeValues rest i vals))⟩
        else ⟨c - numValues rest, writeValues rest i vals, none, false, none⟩) := by
  intro rest
  induction rest with
  | nil =>
    intro i c vals h1 h2
    rw [if_neg (by simp only [numValues]; omega)]
    simp [settleInitLoop, writeValues, numValues]
  | cons x rest ih =>
    intro i c vals h1 h2
    cases x with
    | promiseOk a =>
      show settleInitLoop rest (i + 1) ⟨c, vals, none, false, none⟩ = _
      rw [ih (i + 1) c vals (by simpa [numValues] using h1) h2]
      simp only [numValues, writeValues]
    | promiseErr e =>
      show settleInitLoop rest (i + 1) ⟨c, vals, none, false, none⟩ = _
      rw [ih (i + 1) c vals (by simpa [numValues] using h1) h2]
      simp only [numValues, writeValues]
    | value a =>
      show settleInitLoop rest (i + 1) (resolver i a ⟨c, vals, none, false, none⟩) = _
      by_cases hc1 : 0 < c - 1
      · have hres : resolver i a (⟨c, vals, none, false, none⟩ : SettleState α β) =
            (⟨c - 1, vals.set i (some a), none, false, none⟩ : SettleState α β) := by
          simp [resolver, checkForCompletion, hc1]
        rw [hres, ih (i + 1) (c - 1) (vals.set i (some a))
          (by simp only [numValues] at h1; omega) hc1]
        simp only [numValues, writeValues]
        by_cases he : numValues rest = c - 1
        · rw [if_pos he, if_pos (by omega)]
        · rw [if_neg he, if_neg (by omega)]
          have : c - 1 - numValues rest = c - (numValues rest + 1) := by omega
          rw [this]
      · have hc : c = 1 := by omega
        subst hc
        have hnv : numValues rest = 0 := by simp only [numValues] at h1; omega
        have hres : resolver i a (⟨1, vals, none, false, none⟩ : SettleState α β) =
            (⟨0, vals.set i (some a), none, false,
              some (.ok (vals.set i (some a)))⟩ : SettleState α β) := by
          simp [resolver, checkForCompletion, settleOutcome]
        rw [hres, settleInitLoop_noValues rest (i + 1) _ hnv,
          if_pos (by simp only [numValues]; omega)]
        simp only [writeValues]
        rw [writeValues_noValues rest (i + 1) _ hnv]

/-- The state of a `settleAll` call after its synchronous part: with no
pending promises the deferred has already resolved with the written
values, otherwise it is pending with the countdown at the promise count. -/
theorem settleAllInit_spec {α β : Type} (inputs : List (SettleInput α β)) :
    settleAllInit inputs =
      (if numPromises inputs = 0 then
        ⟨0, expectedValues inputs [], none, false,
          some (.ok (expectedValues inputs []))⟩
      else ⟨numPromises inputs, expectedValues inputs [], none, false, none⟩) := by
  have hpart := numValues_add_numPromises inputs
  have hbase : writeValues inputs 0 (List.replicate inputs.length none) =
      expectedValues inputs [] := by
    apply List.ext_get?
    intro n
    rw [writeValues_get?, expectedValues_get?, if_pos (Nat.zero_le n), Nat.sub_zero]
    by_cases hlt : n < inputs.length
    · rw [if_pos hlt]
      cases hget : inputs.get? n with
      | none => simp [List.get?_eq_getElem?, List.getElem?_replicate, hlt]
      | some x =>
        cases x <;> simp [List.length_replicate, List.get?_eq_getElem?,
          List.getElem?_replicate, hlt]
    · rw [if_neg hlt]
      rw [List.get?_eq_none.mpr (Nat.not_lt.mp hlt)]
      simp [List.get?_eq_getElem?, List.getElem?_replicate, hlt]
  simp only [settleAllInit]
  by_cases hn : inputs.length = 0
  · rw [if_pos hn]
    have hinil : inputs = [] := List.length_eq_zero.mp hn
    subst hinil
    rw [if_pos (by rfl)]
    rfl
  · rw [if_neg hn,
      settleInitLoop_spec inputs 0 inputs.length (List.replicate inputs.length none)
        (by omega) (by omega), hbase]
    by_cases hnp : numPromises inputs = 0
    · rw [if_pos (by omega), if_pos hnp]
    · rw [if_neg (by omega), if_neg hnp]
      have : inputs.length - numValues inputs = numPromises inputs := by omega
      rw [this]

/-- Invariant of the `settleAll` state machine: after the synchronous
call and the delivery of the (distinct, pending-promise) events `pre`,
the countdown holds the undelivered promise count, the resolution array
holds exactly the forwarded values and delivered resolutions, the
rejection fields record the first rejection delivered, and the deferred
is settled exactly when every promise has settled. -/
theorem settleRun_inv {α β : Type} (inputs : List (SettleInput α β))
    (hp : 0 < numPromises inputs) :
    ∀ pre : List Nat, pre.Nodup → (∀ j ∈ pre, j ∈ promiseIndexes inputs) →
    settleRun inputs pre =
      ⟨numPromises inputs - pre.length, expectedValues inputs pre,
        firstRejection inputs pre, (firstRejection inputs pre).isSome,
        if pre.length = numPromises inputs then
          some (match firstRejection inputs pre with
            | none => .ok (expectedValues inputs pre)
            | some e => .error (some e))
        else none⟩ := by
  intro pre
  induction pre using List.reverseRecOn with
  | nil =>
    intro _ _
    show settleAllInit inputs = _
    rw [settleAllInit_spec, if_neg (by omega)]
    have h0 : firstRejection inputs ([] : List Nat) = none := rfl
    rw [h0]
    simp only [List.length_nil, Nat.sub_zero, Option.isSome_none]
    rw [if_neg (by omega)]
  | append_singleton pre j ih =>
    intro hnd hsub
    have hndpre : pre.Nodup := List.Nodup.of_append_left hnd
    have hsubpre : ∀ i ∈ pre, i ∈ promiseIndexes inputs :=
      fun i hi => hsub i (List.mem_append_left _ hi)
    have hjP : j ∈ promiseIndexes inputs := hsub j (by simp)
    have hjnotpre : j ∉ pre := by
      intro hc
      have hdisj := (List.nodup_append.mp hnd).2.2
      exact hdisj hc (by simp)
    have hklt : pre.length + 1 ≤ numPromises inputs := by
      have hsp : (pre ++ [j]).Subperm (promiseIndexes inputs) :=
        List.Nodup.subperm hnd hsub
      have := hsp.length_le
      rw [List.length_append, List.length_singleton] at this
      rw [show promiseIndexes inputs = promiseIndexesGo inputs 0 from rfl,
        length_promiseIndexesGo] at this
      exact this
    have hrun : settleRun inputs (pre ++ [j]) =
        settleEvent inputs (settleRun inputs pre) j := by
      simp [settleRun, List.foldl_append]
    rw [hrun, ih hndpre hsubpre]
    have hjget := (mem_promiseIndexesGo inputs 0 j).mp hjP
    rw [Nat.sub_zero] at hjget
    have hlen2 : (pre ++ [j]).length = pre.length + 1 := by
      rw [List.length_append, List.length_singleton]
    rcases hjget.2 with ⟨a, hja⟩ | ⟨e, hje⟩
    · -- the promise at j resolves with a
      have hFj : firstRejection inputs (pre ++ [j]) = firstRejection inputs pre := by
        rw [firstRejection_append, firstRejection_single_ok inputs j a hja]
        cases firstRejection inputs pre <;> rfl
      have hset : (expectedValues inputs pre).set j (some a) =
          expectedValues inputs (pre ++ [j]) :=
        expectedValues_set_resolve inputs pre j a hja
      rw [if_neg (show ¬ pre.length = numPromises inputs from by omega)]
      simp only [settleEvent, hja, resolver, checkForCompletion, settleOutcome]
      rw [hset, hFj, hlen2,
        show numPromises inputs - pre.length - 1 = numPromises inputs - (pre.length + 1)
          from by omega]
      by_cases hlast : pre.length + 1 = numPromises inputs
      · rw [if_neg (by omega), if_pos hlast]
        cases hF : firstRejection inputs pre with
        | none => simp [hF]
        | some e0 => simp [hF]
      · rw [if_pos (by omega), if_neg hlast]
    · -- the promise at j rejects with e
      have hset : expectedValues inputs (pre ++ [j]) = expectedValues inputs pre :=
        expectedValues_reject inputs pre j e hje
      have hFj : firstRejection inputs (pre ++ [j]) =
          (firstRejection inputs pre).or (some e) := by
        rw [firstRejection_append, firstRejection_single_err inputs j e hje]
      rw [if_neg (show ¬ pre.length = numPromises inputs from by omega)]
      rw [hset, hFj, hlen2]
      cases hF : firstRejection inputs pre with
      | none =>
        simp only [settleEvent, hje, rejecter, checkForCompletion, settleOutcome,
          Option.isSome_none, Option.none_or, Bool.false_eq_true, if_false]
        rw [show numPromises inputs - pre.length - 1 = numPromises inputs - (pre.length + 1)
          from by omega]
        by_cases hlast : pre.length + 1 = numPromises inputs
        · rw [if_neg (by omega), if_pos hlast]
          try simp
        · rw [if_pos (by omega), if_neg hlast]
          try simp
      | some e0 =>
        rw [show (Option.or (some e0) (some e)) = some e0 from rfl]
        simp only [settleEvent, hje, rejecter, checkForCompletion, settleOutcome,
          Option.isSome_some, eq_self_iff_true, if_true]
        rw [show numPromises inputs - pre.length - 1 = numPromises inputs - (pre.length + 1)
          from by omega]
        by_cases hlast : pre.length + 1 = numPromises inputs
        · rw [if_neg (by omega), if_pos hlast]
          try simp
        · rw [if_pos (by omega), if_neg hlast]
          try simp

/-- Nodup of the promise positions. -/
theorem nodup_promiseIndexes {α β : Type} (inputs : List (SettleInput α β)) :
    (promiseIndexes inputs).Nodup :=
  nodup_promiseIndexesGo inputs 0

/-- Once every promise position has been covered, the array holds every
input's settled value at its own position. -/
theorem expectedValues_full {α β : Type} (inputs : List (SettleInput α β))
    (order : List Nat) (horder : order.Perm (promiseIndexes inputs)) :
    expectedValues inputs order = inputs.map settledValue := by
  apply List.ext_get?
  intro n
  rw [expectedValues_get?]
  by_cases hlt : n < inputs.length
  · rw [if_pos hlt]
    have hmapn : (List.map (settledValue (α := α) (β := β)) inputs).get? n =
        (inputs.get? n).map settledValue := by
      rw [List.get?_eq_getElem?, List.getElem?_map, List.get?_eq_getElem?]
    rw [hmapn]
    cases hget : inputs.get? n with
    | none =>
      have := List.get?_eq_none.mp hget
      omega
    | some x =>
      cases x with
      | value a => rfl
      | promiseErr e => rfl
      | promiseOk a =>
        have hmem : n ∈ order := by
          rw [horder.mem_iff]
          show n ∈ promiseIndexesGo inputs 0
          rw [mem_promiseIndexesGo inputs 0 n]
          exact ⟨Nat.zero_le n, Or.inl ⟨a, by rw [Nat.sub_zero]; exact hget⟩⟩
        simp [hmem, settledValue]
  · rw [if_neg hlt]
    rw [List.get?_eq_getElem?, List.getElem?_map,
      List.getElem?_eq_none (by simpa using Nat.not_lt.mp hlt)]
    rfl

/-- The state once the synchronous call ran and every pending promise
has settled (in temporal order `order`). -/
theorem settleRun_final {α β : Type} (inputs : List (SettleInput α β))
    (order : List Nat) (horder : order.Perm (promiseIndexes inputs)) :
    settleRun inputs order =
      ⟨0, expectedValues inputs order, firstRejection inputs order,
        (firstRejection inputs order).isSome,
        some (match firstRejection inputs order with
          | none => .ok (expectedValues inputs order)
          | some e => .error (some e))⟩ := by
  have hplen : order.length = numPromises inputs := by
    rw [horder.length_eq, show promiseIndexes inputs = promiseIndexesGo inputs 0 from rfl,
      length_promiseIndexesGo]
  by_cases hp : 0 < numPromises inputs
  · rw [settleRun_inv inputs hp order
      (horder.nodup_iff.mpr (nodup_promiseIndexes inputs))
      (fun j hj => horder.mem_iff.mp hj),
      if_pos hplen, hplen, Nat.sub_self]
  · have hp0 : numPromises inputs = 0 := by omega
    have hord : order = [] := by
      have := hplen
      rw [hp0] at this
      exact List.length_eq_zero.mp this
    subst hord
    show settleAllInit inputs = _
    rw [settleAllInit_spec, if_pos hp0]
    rfl

end DevToolsUtils

/-- C1: `settleAll` settles only after every input has settled (every
proper prefix of the promise-settlement order leaves the returned
promise pending — no fail-fast rejection); once all inputs have settled
it resolves with the array of settled values at positions matching input
order when no input rejected, and otherwise rejects with the reason of
the first rejection delivered; over an empty input the returned promise
is already resolved by the synchronous call itself. -/
theorem settleAll_spec {α β : Type} (inputs : List (DevToolsUtils.SettleInput α β))
    (order : List Nat)
    (horder : order.Perm (DevToolsUtils.promiseIndexes inputs)) :
    (∀ pre post, order = pre ++ post → post ≠ [] →
      (DevToolsUtils.settleRun inputs pre).outcome = none)
    ∧ ((DevToolsUtils.settleRun inputs order).outcome =
        some (match DevToolsUtils.firstRejection inputs order with
          | none => .ok (inputs.map DevToolsUtils.settledValue)
          | some e => .error (some e)))
    ∧ (inputs = [] → (DevToolsUtils.settleAllInit inputs).outcome = some (.ok [])) := by
  refine ⟨?_, ?_, ?_⟩
  · intro pre post hsplit hpost
    have hplen : order.length = DevToolsUtils.numPromises inputs := by
      rw [horder.length_eq,
        show DevToolsUtils.promiseIndexes inputs = DevToolsUtils.promiseIndexesGo inputs 0
          from rfl,
        DevToolsUtils.length_promiseIndexesGo]
    have hordnd : order.Nodup :=
      horder.nodup_iff.mpr (DevToolsUtils.nodup_promiseIndexes inputs)
    have hprend : pre.Nodup := by
      rw [hsplit] at hordnd
      exact List.Nodup.of_append_left hordnd
    have hpresub : ∀ j ∈ pre, j ∈ DevToolsUtils.promiseIndexes inputs := by
      intro j hj
      exact horder.mem_iff.mp (by rw [hsplit]; exact List.mem_append_left _ hj)
    have hlt : pre.length < DevToolsUtils.numPromises inputs := by
      have h1 : order.length = pre.length + post.length := by
        rw [hsplit, List.length_append]
      have h2 : 0 < post.length := List.length_pos.mpr hpost
      omega
    rw [DevToolsUtils.settleRun_inv inputs (by omega) pre hprend hpresub]
    simp only
    rw [if_neg (by omega)]
  · rw [DevToolsUtils.settleRun_final inputs order horder,
      DevToolsUtils.expectedValues_full inputs order horder]
  · intro h
    subst h
    rfl

/-- C1 witness: a value and three promises, the rejection delivered
second; the settlement order is a permutation of the promise positions. -/
theorem settleAll_spec_witness :
    (([3, 2, 1] : List Nat).Perm (DevToolsUtils.promiseIndexes
      [DevToolsUtils.SettleInput.value 10, DevToolsUtils.SettleInput.promiseOk 20,
        DevToolsUtils.SettleInput.promiseErr "boom", DevToolsUtils.SettleInput.promiseOk 40]))
    ∧ ((DevToolsUtils.settleRun
        [DevToolsUtils.SettleInput.value 10, DevToolsUtils.SettleInput.promiseOk 20,
          DevToolsUtils.SettleInput.promiseErr "boom", DevToolsUtils.SettleInput.promiseOk 40]
        [3, 2, 1]).outcome =
      some (match DevToolsUtils.firstRejection
          [DevToolsUtils.SettleInput.value 10, DevToolsUtils.SettleInput.promiseOk 20,
            DevToolsUtils.SettleInput.promiseErr "boom", DevToolsUtils.SettleInput.promiseOk 40]
          [3, 2, 1] with
        | none => .ok ([DevToolsUtils.SettleInput.value 10,
            DevToolsUtils.SettleInput.promiseOk 20,
            DevToolsUtils.SettleInput.promiseErr "boom",
            DevToolsUtils.SettleInput.promiseOk 40].map DevToolsUtils.settledValue)
        | some e => .error (some e))) :=
  ⟨by decide,
    (settleAll_spec
      [DevToolsUtils.SettleInput.value 10, DevToolsUtils.SettleInput.promiseOk 20,
        DevToolsUtils.SettleInput.promiseErr "boom", DevToolsUtils.SettleInput.promiseOk 40]
      [3, 2, 1] (by decide)).2.1⟩

/-- C10: a `null` argument, and any argument without a `Symbol.iterator`
method, makes `settleAll` throw synchronously (an `Except.error` from the
checked entry, not a rejected promise; `undefined` throws a `TypeError`
at the property access itself); and every non-thenable input value is
forwarded unchanged as its resolution value at its own position in the
result array. -/
theorem settleAll_checks_and_forwards :
    ((DevToolsUtils.settleAllChecked (.jsNull : DevToolsUtils.SettleArg Nat String) =
        .error "Error: settleAll() expects an iterable.")
      ∧ (DevToolsUtils.settleAllChecked (.jsUndefined : DevToolsUtils.SettleArg Nat String) =
        .error "TypeError: values is undefined")
      ∧ (DevToolsUtils.settleAllChecked (.nonIterable : DevToolsUtils.SettleArg Nat String) =
        .error "Error: settleAll() expects an iterable.")
      ∧ (∀ vs : List (DevToolsUtils.SettleInput Nat String),
          DevToolsUtils.settleAllChecked (.iterable vs) = .ok vs))
    ∧ (∀ {α β : Type} (inputs : List (DevToolsUtils.SettleInput α β)) (order : List Nat)
        (i : Nat) (a : α),
        order.Perm (DevToolsUtils.promiseIndexes inputs) →
        inputs.get? i = some (.value a) →
        ((DevToolsUtils.settleRun inputs order).resolutionValues.get? i = some (some a)
          ∧ (DevToolsUtils.firstRejection inputs order = none →
              (DevToolsUtils.settleRun inputs order).outcome =
                some (.ok (inputs.map DevToolsUtils.settledValue))
              ∧ (inputs.map DevToolsUtils.settledValue).get? i = some (some a)))) := by
  refine ⟨⟨rfl, rfl, rfl, fun _ => rfl⟩, ?_⟩
  intro α β inputs order i a horder hval
  have hil : i < inputs.length := by
    by_contra hc
    rw [List.get?_eq_none.mpr (Nat.not_lt.mp hc)] at hval
    cases hval
  have hmap : (inputs.map DevToolsUtils.settledValue).get? i = some (some a) := by
    rw [List.get?_eq_getElem?, List.getElem?_map, ← List.get?_eq_getElem?, hval]
    rfl
  refine ⟨?_, fun hnone => ⟨?_, hmap⟩⟩
  · rw [DevToolsUtils.settleRun_final inputs order horder]
    show (DevToolsUtils.expectedValues inputs order).get? i = some (some a)
    rw [DevToolsUtils.expectedValues_get?, if_pos hil, hval]
  · rw [DevToolsUtils.settleRun_final inputs order horder]
    show some _ = _
    rw [hnone, DevToolsUtils.expectedValues_full inputs order horder]
